import Mathlib

set_option maxRecDepth 100000

/-!
Verification development for the Huffman-Compression repository.

The C sources are shallowly embedded: machine integers become `Nat` (with
explicit masking where the C truncates), a possibly-NULL `struct HuffmanNode *`
becomes an inductive tree type with a `null` constructor for the NULL pointer,
`NULL`-able results of other types become `Option`, and the stateful
bit-stream reader/writer become explicit record states threaded through each
operation.  Loops whose termination measure is not structural are given an
explicit fuel argument; each call site passes a fuel that provably exceeds the
number of iterations the C loop can perform, so the fuel branch is never taken
on the runs considered here (the branch models divergence of the C loop where
the C can actually loop forever, and this is documented at the definition).
-/

namespace HuffmanC

/-- `POSSIBLE_BYTES` from huffman.h: number of possible byte values. -/
def POSSIBLE_BYTES : Nat := 256

/-- `DEFAULT_BUFFER_SIZE` shared by bit_stream_reader.c and bit_stream_writer.c. -/
def DEFAULT_BUFFER_SIZE : Nat := 1024

/-! ## Generic pointer min-priority queue (src/huffman/ptr_pq.c)

The C heap is a growable array `void **heap` with `size` live entries and a
caller-supplied comparator.  We model the live prefix as a `List α` (capacity
and reallocation are invisible to the abstract state) and the comparator as
`α → α → Int`. -/

/-- `swap` from ptr_pq.c, on positions `i` and `j` of the heap array. -/
def heapArraySwap [Inhabited α] (l : List α) (i j : Nat) : List α :=
  (l.set i (l.getD j default)).set j (l.getD i default)

/-- `heapify_up` from ptr_pq.c.  The C recursion proceeds from index `i` to
`(i-1)/2`, strictly decreasing, so at most `i` recursive steps happen; the
first argument is fuel that every call site sets to at least the starting
index, hence the fuel-exhaustion branch is unreachable. -/
def heapify_up [Inhabited α] (cmp : α → α → Int) : Nat → List α → Nat → List α
  | 0, l, _ => l
  | fuel + 1, l, i =>
    if i = 0 then l
    else
      let parent := (i - 1) / 2
      if cmp (l.getD i default) (l.getD parent default) < 0 then
        heapify_up cmp fuel (heapArraySwap l i parent) parent
      else l

/-- `heapify_down` from ptr_pq.c.  The index strictly increases while staying
below the array length, so at most `l.length` recursive steps happen; call
sites pass at least that as fuel, making exhaustion unreachable. -/
def heapify_down [Inhabited α] (cmp : α → α → Int) : Nat → List α → Nat → List α
  | 0, l, _ => l
  | fuel + 1, l, i =>
    let left := 2 * i + 1
    let right := 2 * i + 2
    let s1 := if left < l.length ∧ cmp (l.getD left default) (l.getD i default) < 0 then
      left else i
    let s2 := if right < l.length ∧ cmp (l.getD right default) (l.getD s1 default) < 0 then
      right else s1
    if s2 ≠ i then heapify_down cmp fuel (heapArraySwap l i s2) s2 else l

/-- `ptr_pq_insert`: place the element at index `size`, sift it up.
(The capacity-doubling `resize_if_needed` only reallocates storage and cannot
fail in the model, where allocation always succeeds.) -/
def ptr_pq_insert [Inhabited α] (cmp : α → α → Int) (l : List α) (x : α) : List α :=
  heapify_up cmp l.length (l ++ [x]) l.length

/-- `ptr_pq_extract_min`: on an empty queue return the empty indicator
(`NULL`, modelled `none`); otherwise return `heap[0]`, move the last element
to the root and sift it down over the shrunk array. -/
def ptr_pq_extract_min [Inhabited α] (cmp : α → α → Int) (l : List α) :
    Option α × List α :=
  if l.length = 0 then (none, l)
  else
    let m := l.getD 0 default
    let n := l.length - 1
    if 0 < n then
      (some m, heapify_down cmp n ((l.set 0 (l.getD n default)).take n) 0)
    else (some m, l.take n)

/-- `ptr_pq_peek`. -/
def ptr_pq_peek [Inhabited α] (l : List α) : Option α :=
  if l.length = 0 then none else some (l.getD 0 default)

/-- `ptr_pq_size`. -/
def ptr_pq_size (l : List α) : Nat := l.length

/-- `ptr_pq_is_empty`. -/
def ptr_pq_is_empty (l : List α) : Bool := l.length = 0

/-! ## Huffman tree nodes (src/unnamed/part_000, `struct HuffmanNode`)

A C `link` is a possibly-NULL pointer to a node holding a byte, a frequency
and two child links.  The model folds the NULL pointer into the tree type:
`HuffmanNode.null` is the NULL pointer, `HuffmanNode.mk` a real node. -/

/-- A possibly-NULL `struct HuffmanNode *`. -/
inductive HuffmanNode : Type where
  | null : HuffmanNode
  | mk (byte : Nat) (frequency : Nat) (left right : HuffmanNode) : HuffmanNode
deriving DecidableEq, Repr, Inhabited

/-- `node->byte`.  Dereferencing NULL is undefined in C; the model returns 0,
and every dereference below happens on a non-NULL node. -/
def HuffmanNode.byte : HuffmanNode → Nat
  | .null => 0
  | .mk b _ _ _ => b

/-- `node->frequency` (NULL dereference modelled as 0, never exercised). -/
def HuffmanNode.frequency : HuffmanNode → Nat
  | .null => 0
  | .mk _ f _ _ => f

/-- `node->left` (NULL dereference modelled as `null`, never exercised). -/
def HuffmanNode.left : HuffmanNode → HuffmanNode
  | .null => .null
  | .mk _ _ l _ => l

/-- `node->right` (NULL dereference modelled as `null`, never exercised). -/
def HuffmanNode.right : HuffmanNode → HuffmanNode
  | .null => .null
  | .mk _ _ _ r => r

/-- The C leaf test `node->left == NULL && node->right == NULL`. -/
def HuffmanNode.isLeaf : HuffmanNode → Bool
  | .null => false
  | .mk _ _ l r => l = HuffmanNode.null && r = HuffmanNode.null

/-- `huffman_node_create(byte, frequency)`: fresh node with NULL children. -/
def huffman_node_create (byte frequency : Nat) : HuffmanNode :=
  .mk byte frequency .null .null

/-- `huffman_node_compare`: `a->frequency - b->frequency` as a signed value.
(The C `NULL`/`NULL` case cannot arise: the queue only holds real nodes.) -/
def huffman_node_compare (a b : HuffmanNode) : Int :=
  (a.frequency : Int) - (b.frequency : Int)

/-- `struct HuffmanTreeType`: root pointer, per-byte code array, per-byte code
length array (`calloc`-initialised), and the decode cursor `current`. -/
structure HuffmanTreeType where
  root : HuffmanNode
  codes : List (Option (List Nat))
  code_lengths : List Nat
  current : HuffmanNode
deriving DecidableEq, Repr

/-! ### Code generation (`generate_codes_rec`) -/

/-- One packed byte of a code, as built by the inner loops of
`generate_codes_rec`: bit `j` of byte `i` (counted MSB-first via
`1 << (7-j)`) is set iff position `i*8+j` of the 0/1 path buffer is nonzero
and within `depth`. -/
def pack_code_byte (code : List Nat) (i : Nat) : Nat :=
  (List.range 8).foldl
    (fun acc j =>
      if i * 8 + j < code.length ∧ code.getD (i * 8 + j) 0 ≠ 0 then
        acc ||| (1 <<< (7 - j))
      else acc)
    0

/-- The whole `malloc((depth + 7) / 8 + 1)` code allocation written by
`generate_codes_rec` at a leaf: `(depth+7)/8` packed bytes followed by the
`'\0'` terminator byte. -/
def pack_code (code : List Nat) : List Nat :=
  (List.range ((code.length + 7) / 8)).map (pack_code_byte code) ++ [0]

/-- `generate_codes_rec(node, code, depth, codes, code_lengths)`.  The C keeps
one mutable 256-entry 0/1 buffer plus a `depth` counter; only entries
`code[0..depth)` are live, so the model passes exactly that prefix and appends
`0` (descend left) or `1` (descend right), mirroring `code[depth] = 0/1`.
At a leaf (both children NULL) the packed code and its length are stored at
index `node->byte`. -/
def generate_codes_rec :
    HuffmanNode → List Nat → List (Option (List Nat)) × List Nat →
      List (Option (List Nat)) × List Nat
  | .null, _, acc => acc
  | .mk b _ lch rch, code, acc =>
    if lch = .null ∧ rch = .null then
      (acc.1.set b (some (pack_code code)), acc.2.set b code.length)
    else
      generate_codes_rec rch (code ++ [1])
        (generate_codes_rec lch (code ++ [0]) acc)

/-! ### Tree construction (`huffman_tree_create`) -/

/-- The leaf-insertion loop of `huffman_tree_create`: for each byte value in
increasing order, insert a leaf when its frequency is positive. -/
def huffman_tree_build_queue (frequencies : List Nat) : List HuffmanNode :=
  (List.range POSSIBLE_BYTES).foldl
    (fun pq i =>
      if 0 < frequencies.getD i 0 then
        ptr_pq_insert huffman_node_compare pq
          (huffman_node_create i (frequencies.getD i 0))
      else pq)
    []

/-- The merge loop of `huffman_tree_create` (`while (ptr_pq_size(pq) > 1)`).
Each iteration removes two nodes and inserts one, so the queue shrinks by one;
fuel `≥` the initial size makes exhaustion unreachable.  Both extractions
return real nodes because the size is at least 2; the `_, _` branch mirrors
the C dereferencing of pointers that cannot be NULL there. -/
def huffman_tree_merge_loop : Nat → List HuffmanNode → List HuffmanNode
  | 0, pq => pq
  | fuel + 1, pq =>
    if 1 < pq.length then
      let e1 := ptr_pq_extract_min huffman_node_compare pq
      let e2 := ptr_pq_extract_min huffman_node_compare e1.2
      match e1.1, e2.1 with
      | some left, some right =>
        let parent : HuffmanNode :=
          .mk 0 (left.frequency + right.frequency) left right
        huffman_tree_merge_loop fuel (ptr_pq_insert huffman_node_compare e2.2 parent)
      | _, _ => pq
    else pq

/-- `huffman_tree_create(frequencies)`.  Allocation never fails in the model,
so the `NULL`-returning error paths vanish; an all-zero table still yields a
tree object with a NULL root, exactly as in the C.  `generate_codes` is run
only on a non-NULL root in the C, but `generate_codes_rec` on NULL is the
identity, so the unconditional call is equivalent. -/
def huffman_tree_create (frequencies : List Nat) : HuffmanTreeType :=
  let pq := huffman_tree_build_queue frequencies
  let pq2 := huffman_tree_merge_loop pq.length pq
  let root := match (ptr_pq_extract_min huffman_node_compare pq2).1 with
    | some r => r
    | none => HuffmanNode.null
  let g := generate_codes_rec root []
    (List.replicate POSSIBLE_BYTES none, List.replicate POSSIBLE_BYTES 0)
  { root := root, codes := g.1, code_lengths := g.2, current := .null }

/-! ### Code lookup, total frequency, decode automaton -/

/-- `huffman_tree_get_code`: `tree->codes[byte]`, `NULL` when the byte never
received a code (the arrays are `calloc`ed).  The tree object itself is never
NULL in the model, so that error branch disappears. -/
def huffman_tree_get_code (tree : HuffmanTreeType) (byte : Nat) :
    Option (List Nat) :=
  tree.codes.getD byte none

/-- `huffman_tree_get_code_length`: `tree->code_lengths[byte]` (0 when unset;
the C's `-1` is only for a NULL tree object, which the model excludes). -/
def huffman_tree_get_code_length (tree : HuffmanTreeType) (byte : Nat) : Nat :=
  tree.code_lengths.getD byte 0

/-- `huffman_tree_total_frequencies`: the root's frequency, 0 for an empty
tree. -/
def huffman_tree_total_frequencies (tree : HuffmanTreeType) : Nat :=
  match tree.root with
  | .null => 0
  | r => r.frequency

/-- `huffman_tree_decode_bit(tree, bit, &decoded_byte)`, returning
`(status, updated tree, emitted byte)` with status `1` = byte decoded,
`0` = more bits needed, `-1` = error.  Mirrors the C exactly: a NULL cursor
restarts from the root (error iff the root is also NULL); the cursor then
moves to the left child on `bit == 0` and the right child otherwise; a leaf
destination emits its byte and resets the cursor to NULL; a NULL destination
yields status `0` with the cursor reset to NULL. -/
def huffman_tree_decode_bit (tree : HuffmanTreeType) (bit : Nat) :
    Int × HuffmanTreeType × Option Nat :=
  let start := match tree.current with
    | .null => tree.root
    | c => c
  match start with
  | .null => (-1, tree, none)
  | .mk _ _ cl cr =>
    let dest := if bit = 0 then cl else cr
    match dest with
    | .mk db _ dl dr =>
      if dl = .null ∧ dr = .null then
        (1, { tree with current := .null }, some db)
      else
        (0, { tree with current := dest }, none)
    | .null => (0, { tree with current := .null }, none)

/-! ### Recovering the frequency table from the tree (`get_frequencies`) -/

/-- `get_frequencies_rec`: write each leaf's frequency at its byte index. -/
def get_frequencies_rec : HuffmanNode → List Nat → List Nat
  | .null, freqs => freqs
  | .mk b f lch rch, freqs =>
    if lch = .null ∧ rch = .null then freqs.set b f
    else get_frequencies_rec rch (get_frequencies_rec lch freqs)

/-- `get_frequencies` over a caller-zeroed 256-entry table. -/
def get_frequencies (tree : HuffmanTreeType) : List Nat :=
  get_frequencies_rec tree.root (List.replicate POSSIBLE_BYTES 0)

/-! ## Bit stream writer (src/IO/bit_stream_writer.c)

`struct BitStreamWriter` is modelled field by field.  The `FILE *` sink is
modelled as the list of bytes accepted so far plus a capacity: `fwrite`
accepts at most `file_cap` further bytes (`none` = unbounded) and reports the
number actually written, which is how a short write sets the sticky error
flag in the C.  `fflush` of the OS stream itself is modelled as always
succeeding.  `buffer` holds the `buffer_pos` filled bytes of the C buffer. -/

structure BitStreamWriter where
  file : List Nat
  file_cap : Option Nat
  buffer : List Nat
  buffer_size : Nat
  current_byte : Nat
  bit_pos : Nat
  total_bits : Nat
  has_error : Bool
deriving DecidableEq, Repr

/-- `bsw_create_from_file` (and `bsw_create`): buffer size 0 selects the
default; `file_cap` is the modelled capacity of the sink. -/
def bsw_create_from_file (buffer_size : Nat) (file_cap : Option Nat) :
    BitStreamWriter :=
  { file := [], file_cap := file_cap, buffer := [],
    buffer_size := if buffer_size = 0 then DEFAULT_BUFFER_SIZE else buffer_size,
    current_byte := 0, bit_pos := 0, total_bits := 0, has_error := false }

/-- Model of `fwrite(data, 1, n, file)`: append as many bytes as the sink
still accepts and report that count. -/
def fwriteModel (w : BitStreamWriter) (data : List Nat) :
    Nat × BitStreamWriter :=
  match w.file_cap with
  | none => (data.length, { w with file := w.file ++ data })
  | some cap =>
    let k := min data.length cap
    (k, { w with file := w.file ++ data.take k, file_cap := some (cap - k) })

/-- `flush_buffer`: nothing to do on an empty buffer; otherwise `fwrite` the
buffer, set the sticky error on a short write (leaving `buffer_pos`, i.e. the
buffer contents, untouched exactly as the C does), else reset the buffer. -/
def flush_buffer (w : BitStreamWriter) : Bool × BitStreamWriter :=
  if w.buffer.length = 0 then (true, w)
  else
    let r := fwriteModel w w.buffer
    if r.1 ≠ w.buffer.length then (false, { r.2 with has_error := true })
    else (true, { r.2 with buffer := [] })

/-- `add_byte_to_buffer`: flush first when full, then append. -/
def add_byte_to_buffer (w : BitStreamWriter) (byte : Nat) :
    Bool × BitStreamWriter :=
  if w.buffer.length ≥ w.buffer_size then
    let r := flush_buffer w
    if r.1 = false then (false, r.2)
    else (true, { r.2 with buffer := r.2.buffer ++ [byte] })
  else (true, { w with buffer := w.buffer ++ [byte] })

/-- `bsw_write_bit`: rejected when the sticky error flag is set; otherwise OR
the bit into the pending byte at position `7 - bit_pos`, bump the counters,
and emit the pending byte once 8 bits have accumulated. -/
def bsw_write_bit (w : BitStreamWriter) (bit : Nat) : Bool × BitStreamWriter :=
  if w.has_error then (false, w)
  else
    let w1 := if bit ≠ 0 then
        { w with current_byte := w.current_byte ||| (1 <<< (7 - w.bit_pos)) }
      else w
    let w2 := { w1 with bit_pos := w1.bit_pos + 1, total_bits := w1.total_bits + 1 }
    if w2.bit_pos = 8 then
      let r := add_byte_to_buffer w2 w2.current_byte
      if r.1 = false then (false, r.2)
      else (true, { r.2 with current_byte := 0, bit_pos := 0 })
    else (true, w2)

/-- The loop of `bsw_write_bits`: bit `i` is taken as
`(values[i / 8] >> (7 - i % 8)) & 1`. -/
def bsw_write_bits_go (values : List Nat) :
    Nat → Nat → BitStreamWriter → Bool × BitStreamWriter
  | 0, _, w => (true, w)
  | k + 1, i, w =>
    let bit := (values.getD (i / 8) 0 >>> (7 - i % 8)) &&& 1
    let r := bsw_write_bit w bit
    if r.1 = false then (false, r.2)
    else bsw_write_bits_go values k (i + 1) r.2

/-- `bsw_write_bits(writer, values, num_bits)` (the .c definition: `bool`
result, at most 64 bits, rejected in the sticky error state). -/
def bsw_write_bits (w : BitStreamWriter) (values : List Nat) (num_bits : Nat) :
    Bool × BitStreamWriter :=
  if w.has_error ∨ num_bits > 64 then (false, w)
  else bsw_write_bits_go values num_bits 0 w

/-- `bsw_write_byte`: at a byte boundary the byte goes straight to the buffer
(note: the C performs no sticky-error check on this path); otherwise the C
expands the byte into an array `bits[8]` of 0/1 values and calls
`bsw_write_bits(bits, 8)` - which then reads all 8 bits from `bits[0]` via
`values[i / 8]`, so only the most significant bit of `byte` survives, in the
last position.  The model reproduces that behaviour by construction. -/
def bsw_write_byte (w : BitStreamWriter) (byte : Nat) : Bool × BitStreamWriter :=
  if w.bit_pos = 0 then
    let r := add_byte_to_buffer w byte
    if r.1 = false then (false, r.2)
    else (true, { r.2 with total_bits := r.2.total_bits + 8 })
  else
    bsw_write_bits w ((List.range 8).map (fun i => (byte >>> (7 - i)) &&& 1)) 8

/-- The byte-by-byte fallback loop of `bsw_write_bytes`. -/
def bsw_write_bytes_loop : List Nat → BitStreamWriter → Bool × BitStreamWriter
  | [], w => (true, w)
  | b :: rest, w =>
    let r := bsw_write_byte w b
    if r.1 = false then (false, r.2)
    else bsw_write_bytes_loop rest r.2

/-- `bsw_write_bytes(writer, data, size)` with `size = data.length` (the C
caller passes an explicit length; model call sites pass the corresponding
`take`).  Sticky-error check, then the optimized aligned path for more than 8
bytes (flush pending buffer, then either write straight through the sink or
drop the data into the empty buffer), else byte-by-byte. -/
def bsw_write_bytes (w : BitStreamWriter) (data : List Nat) :
    Bool × BitStreamWriter :=
  if w.has_error then (false, w)
  else if w.bit_pos = 0 ∧ 8 < data.length then
    let r0 := if 0 < w.buffer.length then flush_buffer w else (true, w)
    if r0.1 = false then (false, r0.2)
    else
      let w1 := r0.2
      if data.length ≥ w1.buffer_size then
        let r1 := fwriteModel w1 data
        if r1.1 ≠ data.length then (false, { r1.2 with has_error := true })
        else (true, { r1.2 with total_bits := r1.2.total_bits + data.length * 8 })
      else
        (true, { w1 with buffer := data,
                         total_bits := w1.total_bits + data.length * 8 })
  else bsw_write_bytes_loop data w

/-- `bsw_flush`: force out a partial pending byte (zero-padded by
construction), flush the buffer, then `fflush` (modelled always succeeding).
Note: the C performs no sticky-error check here. -/
def bsw_flush (w : BitStreamWriter) : Bool × BitStreamWriter :=
  let r0 := if 0 < w.bit_pos then
      let r := add_byte_to_buffer w w.current_byte
      if r.1 = false then (false, r.2)
      else (true, { r.2 with current_byte := 0, bit_pos := 0 })
    else (true, w)
  if r0.1 = false then (false, r0.2)
  else flush_buffer r0.2

/-- `bsw_align_to_byte`: no-op when aligned; otherwise push the partial byte
to the buffer and account the padding bits.  No sticky-error check in the C. -/
def bsw_align_to_byte (w : BitStreamWriter) : Bool × BitStreamWriter :=
  if w.bit_pos = 0 then (true, w)
  else
    let r := add_byte_to_buffer w w.current_byte
    if r.1 = false then (false, r.2)
    else (true, { r.2 with total_bits := r.2.total_bits + (8 - r.2.bit_pos),
                           current_byte := 0, bit_pos := 0 })

/-- `bsw_has_error`. -/
def bsw_has_error (w : BitStreamWriter) : Bool := w.has_error

/-- `bsw_clear_error`. -/
def bsw_clear_error (w : BitStreamWriter) : BitStreamWriter :=
  { w with has_error := false }

/-- `bsw_get_bits_written`. -/
def bsw_get_bits_written (w : BitStreamWriter) : Nat := w.total_bits

/-! ## Bit stream reader (src/IO/bit_stream_reader.c)

`struct BitStreamReader` modelled field by field.  The `FILE *` source is the
full byte list `file` with a cursor `file_pos` (so `bsr_rewind`'s `fseek` can
return to the start); `read_fail` models a source whose `fread` fails (returns
0 without end-of-file), which is how the sticky error flag gets set.  `buffer`
holds the `buffer_filled` bytes of the C buffer and `buffer_pos` the read
cursor within it. -/

structure BitStreamReader where
  file : List Nat
  file_pos : Nat
  read_fail : Bool
  buffer : List Nat
  buffer_pos : Nat
  buffer_size : Nat
  current_byte : Nat
  bit_pos : Nat
  total_bits : Nat
  has_error : Bool
  is_eof : Bool
deriving DecidableEq, Repr

/-- `bsr_create_from_file` (and `bsr_create`): buffer size 0 selects the
default; `bit_pos = 8` forces reading a new byte on first use. -/
def bsr_create_from_file (file : List Nat) (buffer_size : Nat) :
    BitStreamReader :=
  { file := file, file_pos := 0, read_fail := false, buffer := [],
    buffer_pos := 0,
    buffer_size := if buffer_size = 0 then DEFAULT_BUFFER_SIZE else buffer_size,
    current_byte := 0, bit_pos := 8, total_bits := 0,
    has_error := false, is_eof := false }

/-- `refill_buffer`: `fread` up to `buffer_size` bytes.  A zero-byte result
means end-of-file (when the source is exhausted) or the sticky error (when
the source is failing, `read_fail`). -/
def refill_buffer (r : BitStreamReader) : Bool × BitStreamReader :=
  if r.is_eof then (false, r)
  else if r.read_fail then
    (false, { r with buffer := [], buffer_pos := 0, has_error := true })
  else
    let chunk := (r.file.drop r.file_pos).take r.buffer_size
    let r1 := { r with buffer := chunk, buffer_pos := 0,
                       file_pos := r.file_pos + chunk.length }
    if chunk.length = 0 then (false, { r1 with is_eof := true })
    else (true, r1)

/-- `read_next_byte`: ignored unless all 8 bits of the current byte are
consumed; refill when the buffer is exhausted; then latch the next byte. -/
def read_next_byte (r : BitStreamReader) : Bool × BitStreamReader :=
  if r.bit_pos ≠ 8 then (true, r)
  else
    let r1 := if r.buffer_pos ≥ r.buffer.length then refill_buffer r
      else (true, r)
    if r1.1 = false then (false, r1.2)
    else
      let r2 := r1.2
      (true, { r2 with current_byte := r2.buffer.getD r2.buffer_pos 0,
                       buffer_pos := r2.buffer_pos + 1, bit_pos := 0 })

/-- `bsr_read_bit`: sticky-error check, latch a byte if needed, extract bit
`(current_byte >> (7 - bit_pos)) & 1`, bump the counters.  The C's `bool`
result plus out-parameter becomes `Option Nat`. -/
def bsr_read_bit (r : BitStreamReader) : Option Nat × BitStreamReader :=
  if r.has_error then (none, r)
  else
    let r1 := read_next_byte r
    if r1.1 = false then (none, r1.2)
    else
      let r2 := r1.2
      let bit := (r2.current_byte >>> (7 - r2.bit_pos)) &&& 1
      (some bit, { r2 with bit_pos := r2.bit_pos + 1,
                           total_bits := r2.total_bits + 1 })

/-- The loop of `bsr_read_bits`: stop at the first failed bit read, returning
the bits obtained so far (the C returns their count and stores them one per
output byte). -/
def bsr_read_bits_go : Nat → BitStreamReader → List Nat × BitStreamReader
  | 0, r => ([], r)
  | k + 1, r =>
    let x := bsr_read_bit r
    match x.1 with
    | none => ([], x.2)
    | some b =>
      let rest := bsr_read_bits_go k x.2
      (b :: rest.1, rest.2)

/-- `bsr_read_bits(reader, value, num_bits)`. -/
def bsr_read_bits (r : BitStreamReader) (num_bits : Nat) :
    List Nat × BitStreamReader :=
  if r.has_error then ([], r) else bsr_read_bits_go num_bits r

/-- `bsr_read_byte`: fast path when byte-aligned (`bit_pos = 0` after the
latch), else assemble 8 bits (`*byte |= value[i] << (7 - i)`); in both
successful paths the C adds another 8 to `total_bits`. -/
def bsr_read_byte (r : BitStreamReader) : Option Nat × BitStreamReader :=
  if r.has_error then (none, r)
  else
    let r1 := read_next_byte r
    if r1.1 = false then (none, r1.2)
    else
      let r2 := r1.2
      if r2.bit_pos = 0 then
        (some r2.current_byte,
         { r2 with bit_pos := 8, total_bits := r2.total_bits + 8 })
      else
        let rb := bsr_read_bits r2 8
        if rb.1.length = 8 then
          let byte := (List.range 8).foldl
            (fun acc i => acc ||| (rb.1.getD i 0 <<< (7 - i))) 0
          (some byte, { rb.2 with total_bits := rb.2.total_bits + 8 })
        else (none, rb.2)

/-- The trailing byte-by-byte loop of `bsr_read_bytes`
(`while (bytes_read < size)`). -/
def bsr_read_bytes_tail_loop : Nat → BitStreamReader → List Nat × BitStreamReader
  | 0, r => ([], r)
  | k + 1, r =>
    let x := bsr_read_byte r
    match x.1 with
    | none => ([], x.2)
    | some b =>
      let rest := bsr_read_bytes_tail_loop k x.2
      (b :: rest.1, rest.2)

/-- `bsr_read_bytes(reader, data, size)`, returning the bytes actually read.
All branches of the C are mirrored: sticky-error check; latch; if aligned,
one `bsr_read_byte`, then a `memcpy` of leftover buffered bytes, then either
a direct `fread` into the destination (when the residual request is at least
the buffer size) or a refill followed by the byte loop; if unaligned, the
byte loop alone. -/
def bsr_read_bytes (r : BitStreamReader) (size : Nat) :
    List Nat × BitStreamReader :=
  if r.has_error then ([], r)
  else
    let rn := read_next_byte r
    if rn.1 = false then ([], rn.2)
    else
      let r2 := rn.2
      if r2.bit_pos = 0 then
        let x := bsr_read_byte r2
        match x.1 with
        | none => ([], x.2)
        | some b0 =>
          let r3 := x.2
          if size = 1 then ([b0], r3)
          else
            let copied :=
              if r3.buffer_pos < r3.buffer.length then
                let to_copy := min (size - 1) (r3.buffer.length - r3.buffer_pos)
                ((r3.buffer.drop r3.buffer_pos).take to_copy,
                 { r3 with buffer_pos := r3.buffer_pos + to_copy,
                           total_bits := r3.total_bits + to_copy * 8 })
              else ([], r3)
            let bytes1 := b0 :: copied.1
            let r4 := copied.2
            if bytes1.length = size then (bytes1, r4)
            else
              let r5 := { r4 with buffer := [], buffer_pos := 0 }
              let requested := size - bytes1.length
              if requested ≥ r5.buffer_size then
                let chunk := if r5.read_fail then []
                  else (r5.file.drop r5.file_pos).take requested
                let r6 := { r5 with file_pos := r5.file_pos + chunk.length,
                                    total_bits := r5.total_bits + chunk.length * 8 }
                let r7 := if chunk.length < requested ∧ r5.read_fail then
                    { r6 with has_error := true } else r6
                let r8 := if chunk.length = 0 ∧ ¬ r5.read_fail then
                    { r7 with is_eof := true } else r7
                (bytes1 ++ chunk, r8)
              else
                let rf := refill_buffer r5
                if rf.1 = false ∧ rf.2.buffer.length = 0 then (bytes1, rf.2)
                else
                  let tail := bsr_read_bytes_tail_loop requested rf.2
                  (bytes1 ++ tail.1, tail.2)
      else
        bsr_read_bytes_tail_loop size r2

/-- `bsr_align_to_byte`: discard the remaining bits of the current byte. -/
def bsr_align_to_byte (r : BitStreamReader) : Bool × BitStreamReader :=
  if r.has_error then (false, r)
  else if r.bit_pos = 0 ∨ r.bit_pos = 8 then (true, r)
  else (true, { r with bit_pos := 8 })

/-- `bsr_rewind`: reset buffer and counters, `fseek` to the start (which
clears the end-of-file indicator but not the error indicator of the source),
then reload `is_eof`/`has_error` from the source's indicators. -/
def bsr_rewind (r : BitStreamReader) : BitStreamReader :=
  if r.has_error then r
  else
    { r with buffer := [], buffer_pos := 0, total_bits := 0, bit_pos := 8,
             file_pos := 0, is_eof := false, has_error := r.read_fail }

/-- `bsr_is_eof`. -/
def bsr_is_eof (r : BitStreamReader) : Bool := r.is_eof

/-- `bsr_has_error`. -/
def bsr_has_error (r : BitStreamReader) : Bool := r.has_error

/-- `bsr_clear_error`. -/
def bsr_clear_error (r : BitStreamReader) : BitStreamReader :=
  { r with has_error := false }

/-! ## Header serialization (`huffman_tree_save` / `huffman_tree_load`) -/

/-- The 4-byte header entry built by `huffman_tree_save` for byte value `i`
with frequency `f`: `frequencies[0] = (uint8_t)i`, then for `j = 1..3`
`frequencies[j] = (uint8_t)(f >> 8 * (4 - 1 - j))`, i.e. the low 24 bits of
`f` big-endian. -/
def freq_entry_bytes (i f : Nat) : List Nat :=
  [i % 256, (f >>> 16) % 256, (f >>> 8) % 256, f % 256]

/-- `huffman_tree_save(tree, writer)`: recover the frequencies from the tree
leaves, write one 4-byte entry per nonzero frequency in increasing byte
order, then four zero bytes (the sentinel), then align and flush.  The C
ignores the individual write results and returns the flush result. -/
def huffman_tree_save (tree : HuffmanTreeType) (writer : BitStreamWriter) :
    Bool × BitStreamWriter :=
  let freqTemp := get_frequencies tree
  let w1 := (List.range POSSIBLE_BYTES).foldl
    (fun w i =>
      if 0 < freqTemp.getD i 0 then
        (bsw_write_bytes w (freq_entry_bytes i (freqTemp.getD i 0))).2
      else w)
    writer
  let w2 := (List.range 4).foldl (fun w _ => (bsw_write_byte w 0).2) w1
  let w3 := (bsw_align_to_byte w2).2
  bsw_flush w3

/-- The `while (true)` loop of `huffman_tree_load`: read 4 bytes (the C
ignores the count returned by `bsr_read_bytes`, so bytes not delivered keep
their previous - initially indeterminate - values, modelled by carrying
`tempFreq` across iterations starting from zeros); reassemble
`tempFreq[1] << 16 | tempFreq[2] << 8 | tempFreq[3]`; stop on zero, else
store at index `tempFreq[0]`.  When the source stops delivering bytes and the
stale frequency is nonzero the C loops forever; the model returns `none` when
the fuel - passed as more than the number of 4-byte groups the source can
deliver - runs out, which happens exactly in that divergent situation. -/
def huffman_tree_load_loop :
    Nat → List Nat → List Nat → BitStreamReader →
      Option (List Nat × BitStreamReader)
  | 0, _, _, _ => none
  | fuel + 1, tempFreq, frequencies, r =>
    let x := bsr_read_bytes r 4
    let tf := x.1 ++ tempFreq.drop x.1.length
    let tmpFreq := (tf.getD 1 0) <<< 16 ||| (tf.getD 2 0) <<< 8 ||| tf.getD 3 0
    if tmpFreq = 0 then some (frequencies, x.2)
    else
      huffman_tree_load_loop fuel tf
        (frequencies.set (tf.getD 0 0) tmpFreq) x.2

/-- `huffman_tree_load(reader)`: run the header loop from a zeroed frequency
table, then rebuild the tree with `huffman_tree_create`.  `none` models the
divergent stale-read situation described at `huffman_tree_load_loop` (the C
otherwise cannot return NULL here, since allocation succeeds in the model). -/
def huffman_tree_load (reader : BitStreamReader) :
    Option (HuffmanTreeType × BitStreamReader) :=
  match huffman_tree_load_loop (reader.file.length + 2) [0, 0, 0, 0]
      (List.replicate POSSIBLE_BYTES 0) reader with
  | none => none
  | some (freqs, r) => some (huffman_tree_create freqs, r)

/-! ## The compression / decompression pipelines (src/main.c) -/

/-- Modelled from the spec: `bsw_write_padding_line` is called by
`huffman_compress` (main.c line 94, "Add padding line") but its definition is
nowhere under src/.  `huffman_decompress` skips exactly 16 bytes after the
header ("Skip the padding line"), and the spec's design notes mention a
fixed-size padding marker variant of the format, so the function is modelled
as writing 16 bytes through `bsw_write_bytes`; the decompressor discards
them, so only their number is observable.  Zero is used as their value. -/
def bsw_write_padding_line (w : BitStreamWriter) : Bool × BitStreamWriter :=
  bsw_write_bytes w (List.replicate 16 0)

/-- The frequency-counting loop of `huffman_compress`
(`while (bsr_read_byte(reader, &byte)) frequencies[byte]++`).  Each
successful read consumes at least one bit of the source, so fuel exceeding
the input length makes exhaustion unreachable. -/
def count_frequencies_loop :
    Nat → BitStreamReader → List Nat → BitStreamReader × List Nat
  | 0, r, freqs => (r, freqs)
  | fuel + 1, r, freqs =>
    let x := bsr_read_byte r
    match x.1 with
    | none => (x.2, freqs)
    | some b => count_frequencies_loop fuel x.2 (freqs.set b (freqs.getD b 0 + 1))

/-- The encoding loop of `huffman_compress`: for each input byte, look up its
code and length; when a code exists with positive length, write
`code_length / 8` whole bytes from the packed code followed by the remaining
`code_length % 8` bits (or just the bits when shorter than a byte).  All
write results are ignored by the C. -/
def huffman_compress_body :
    Nat → HuffmanTreeType → BitStreamReader → BitStreamWriter →
      BitStreamReader × BitStreamWriter
  | 0, _, r, w => (r, w)
  | fuel + 1, tree, r, w =>
    let x := bsr_read_byte r
    match x.1 with
    | none => (x.2, w)
    | some byte =>
      let code := huffman_tree_get_code tree byte
      let code_length := huffman_tree_get_code_length tree byte
      let w2 := match code with
        | some c =>
          if 0 < code_length then
            if 8 ≤ code_length then
              let wa := (bsw_write_bytes w (c.take (code_length / 8))).2
              (bsw_write_bits wa (c.drop (code_length / 8)) (code_length % 8)).2
            else (bsw_write_bits w c code_length).2
          else w
        | none => w
      huffman_compress_body fuel tree x.2 w2

/-- `huffman_compress(reader, writer)` over an input byte list: count
frequencies, build the tree, save the header, write the padding line, flush,
rewind, emit the body codes, align and flush.  The C's only failure path is a
NULL tree from allocation failure, which the model excludes, so the output
file bytes are returned directly. -/
def huffman_compress (input : List Nat) : List Nat :=
  let reader := bsr_create_from_file input 0
  let writer := bsw_create_from_file 0 none
  let c := count_frequencies_loop (input.length + 8) reader
    (List.replicate POSSIBLE_BYTES 0)
  let tree := huffman_tree_create c.2
  let w1 := (huffman_tree_save tree writer).2
  let w2 := (bsw_write_padding_line w1).2
  let w3 := (bsw_flush w2).2
  let r1 := bsr_rewind c.1
  let enc := huffman_compress_body (input.length + 8) tree r1 w3
  let w4 := (bsw_align_to_byte enc.2).2
  let w5 := (bsw_flush w4).2
  w5.file

/-- The decode loop of `huffman_decompress`
(`while (bsr_read_bit(reader, &bit))`): feed each bit to the automaton;
status 0 continues, status 1 writes the decoded byte (result ignored),
status -1 aborts the whole operation with `EXIT_FAILURE` (modelled `none`).
Each successful bit read consumes one bit of the source, so fuel exceeding
the total bit count makes exhaustion (also modelled `none`) unreachable. -/
def huffman_decompress_loop :
    Nat → HuffmanTreeType → BitStreamReader → BitStreamWriter →
      Option (HuffmanTreeType × BitStreamReader × BitStreamWriter)
  | 0, _, _, _ => none
  | fuel + 1, tree, r, w =>
    let x := bsr_read_bit r
    match x.1 with
    | none => some (tree, x.2, w)
    | some bit =>
      let d := huffman_tree_decode_bit tree bit
      if d.1 = 1 then
        huffman_decompress_loop fuel d.2.1 x.2 (bsw_write_byte w (d.2.2.getD 0)).2
      else if d.1 = 0 then
        huffman_decompress_loop fuel d.2.1 x.2 w
      else none

/-- `huffman_decompress(reader, writer)` over a compressed byte list: load
the tree (NULL tree aborts), skip the 16 padding-line bytes (read results
ignored), run the decode loop, align and flush the writer; the output file
bytes are returned, `none` for the `EXIT_FAILURE` paths. -/
def huffman_decompress (input : List Nat) : Option (List Nat) :=
  let reader := bsr_create_from_file input 0
  match huffman_tree_load reader with
  | none => none
  | some (tree, r1) =>
    let r2 := (List.range 16).foldl (fun r _ => (bsr_read_byte r).2) r1
    let w0 := bsw_create_from_file 0 none
    match huffman_decompress_loop (8 * input.length + 64) tree r2 w0 with
    | none => none
    | some (_, _, w) =>
      let w1 := (bsw_align_to_byte w).2
      let w2 := (bsw_flush w1).2
      some w2.file

/-! ## Derived definitions used by the verification theorems -/

/-- A bit-stream writer state whose sticky error flag is set (as after a
failed `fwrite`, modelled by the exhausted sink capacity), byte-aligned with
room in the buffer. -/
def erroredWriter : BitStreamWriter :=
  { file := [], file_cap := some 0, buffer := [], buffer_size := 4,
    current_byte := 0, bit_pos := 0, total_bits := 0, has_error := true }

/-- A bit-stream reader state whose sticky error flag is set. -/
def erroredReader : BitStreamReader :=
  { file := [1, 2, 3], file_pos := 0, read_fail := true, buffer := [],
    buffer_pos := 0, buffer_size := 4, current_byte := 0, bit_pos := 8,
    total_bits := 0, has_error := true, is_eof := false }

/-- Follow a 0/1 path down from a node: 0 descends to the left child,
anything else to the right (the convention shared by `generate_codes_rec`
and `huffman_tree_decode_bit`). -/
def nodeAt : HuffmanNode → List Nat → HuffmanNode
  | n, [] => n
  | n, b :: p =>
    match n with
    | .null => .null
    | .mk _ _ l r => nodeAt (if b = 0 then l else r) p

/-- The bit pattern of a stored packed code of the recorded length, read the
way `bsw_write_bits` transmits it: bit `i` is `(c[i / 8] >> (7 - i % 8)) & 1`. -/
def code_bit_pattern (c : List Nat) (len : Nat) : List Nat :=
  (List.range len).map (fun i => (c.getD (i / 8) 0 >>> (7 - i % 8)) &&& 1)

/-- The binary-heap order: every parent is `cmp`-at-most each of its
children. -/
def IsMinHeap {α : Type} [Inhabited α] (cmp : α → α → Int) (l : List α) : Prop :=
  ∀ a j, (j = 2 * a + 1 ∨ j = 2 * a + 2) → j < l.length →
    cmp (l.getD a default) (l.getD j default) ≤ 0

/-- Invariant of `heapify_up` at cursor `i`: the heap order holds on every
edge not pointing at `i`, and the would-be grandparent relation holds: the
parent of `i` is at most each child of `i`. -/
def SiftUpInv {α : Type} [Inhabited α] (cmp : α → α → Int) (l : List α)
    (i : Nat) : Prop :=
  (∀ a j, (j = 2 * a + 1 ∨ j = 2 * a + 2) → j < l.length → j ≠ i →
      cmp (l.getD a default) (l.getD j default) ≤ 0) ∧
  (0 < i → ∀ j, (j = 2 * i + 1 ∨ j = 2 * i + 2) → j < l.length →
      cmp (l.getD ((i - 1) / 2) default) (l.getD j default) ≤ 0)

/-- Invariant of `heapify_down` at cursor `i`: the heap order holds on every
edge not leaving `i`, and the parent of `i` is at most each child of `i`. -/
def SiftDownInv {α : Type} [Inhabited α] (cmp : α → α → Int) (l : List α)
    (i : Nat) : Prop :=
  (∀ a j, (j = 2 * a + 1 ∨ j = 2 * a + 2) → j < l.length → a ≠ i →
      cmp (l.getD a default) (l.getD j default) ≤ 0) ∧
  (0 < i → ∀ j, (j = 2 * i + 1 ∨ j = 2 * i + 2) → j < l.length →
      cmp (l.getD ((i - 1) / 2) default) (l.getD j default) ≤ 0)

/-- The priority-queue states reachable from the empty queue by inserts and
extractions. -/
inductive PQReachable {α : Type} [Inhabited α] (cmp : α → α → Int) :
    List α → Prop where
  | empty : PQReachable cmp []
  | insert (l : List α) (x : α) (h : PQReachable cmp l) :
      PQReachable cmp (ptr_pq_insert cmp l x)
  | extract (l : List α) (h : PQReachable cmp l) :
      PQReachable cmp (ptr_pq_extract_min cmp l).2

/-- The (byte, frequency) pairs at the leaves of a subtree, in left-to-right
order, using the C leaf test. -/
def leavesList : HuffmanNode → List (Nat × Nat)
  | .null => []
  | .mk b f lch rch =>
    if lch = HuffmanNode.null ∧ rch = HuffmanNode.null then [(b, f)]
    else leavesList lch ++ leavesList rch

/-- Full-shape predicate: every internal node has two non-NULL children.
All nodes the builder creates satisfy it. -/
def isFullNode : HuffmanNode → Bool
  | .null => true
  | .mk _ _ .null .null => true
  | .mk _ _ .null (.mk _ _ _ _) => false
  | .mk _ _ (.mk _ _ _ _) .null => false
  | .mk _ _ (.mk b1 f1 l1 r1) (.mk b2 f2 l2 r2) =>
    isFullNode (.mk b1 f1 l1 r1) && isFullNode (.mk b2 f2 l2 r2)

/-- Number of leaves of a subtree. -/
def leafCount : HuffmanNode → Nat
  | .null => 0
  | .mk _ _ lch rch =>
    if lch = HuffmanNode.null ∧ rch = HuffmanNode.null then 1
    else leafCount lch + leafCount rch

/-- Number of internal (non-leaf, non-NULL) nodes of a subtree. -/
def internalCount : HuffmanNode → Nat
  | .null => 0
  | .mk _ _ lch rch =>
    if lch = HuffmanNode.null ∧ rch = HuffmanNode.null then 0
    else internalCount lch + internalCount rch + 1

/-- The (byte, frequency) pairs of the nonzero entries of a frequency table,
in increasing byte order. -/
def nonzeroPairs (t : List Nat) : List (Nat × Nat) :=
  ((List.range POSSIBLE_BYTES).filter (fun i => 0 < t.getD i 0)).map
    (fun i => (i, t.getD i 0))

/-- All leaf pairs found anywhere in a queue of subtrees, as a multiset. -/
def queueLeaves (h : List HuffmanNode) : Multiset (Nat × Nat) :=
  ((h : Multiset HuffmanNode).map
    (fun n => (leavesList n : Multiset (Nat × Nat)))).sum

/-- The bytes a writer has produced so far: the sink contents followed by the
still-buffered bytes. -/
def wcontent (w : BitStreamWriter) : List Nat := w.file ++ w.buffer

/-- The pure description of the header `huffman_tree_save` writes for a
frequency table: one 4-byte entry per nonzero frequency in increasing byte
order, then the 4-byte zero sentinel. -/
def header_bytes (freqs : List Nat) : List Nat :=
  ((List.range POSSIBLE_BYTES).foldl
    (fun acc i => if 0 < freqs.getD i 0 then
      acc ++ freq_entry_bytes i (freqs.getD i 0) else acc) []) ++ [0, 0, 0, 0]

/-- The bytes a reader has not yet delivered: the unread part of the buffer
followed by the unread part of the source. -/
def rrem (r : BitStreamReader) : List Nat :=
  r.buffer.drop r.buffer_pos ++ r.file.drop r.file_pos

/-- A byte-aligned healthy reader: no sticky error, a working source, all 8
bits of the latched byte consumed, in-range cursors, a buffer of at least 4
bytes, and end-of-file not yet hit. -/
def ROk (r : BitStreamReader) : Prop :=
  r.has_error = false ∧ r.read_fail = false ∧ r.bit_pos = 8 ∧
    r.buffer_pos ≤ r.buffer.length ∧ r.file_pos ≤ r.file.length ∧
    4 ≤ r.buffer_size ∧ r.is_eof = false

/-! # Claim theorems -/

/-! ## C1: round trip

The claim states `decompress(compress(S)) = S` for every finite byte
sequence.  The code refutes it: `huffman_decompress` stops on end of input
and never consults the total frequency count, so for a single-symbol input
(whose code length is zero and whose body is therefore empty) nothing at all
is decoded, and for multi-symbol inputs the trailing zero-padding bits decode
as spurious extra bytes.  The repository's own README calls the program a
lossless compression algorithm, so this is a bug in the code rather than in
the claim.  The theorem evaluates both pipelines at the failing input
`[0x41]`. -/

/-- C1: round trip fails on the one-byte input `[0x41]`: compressing and then
decompressing yields the empty sequence, not `[0x41]`. -/
theorem C1_roundtrip_fails_on_single_byte :
    huffman_decompress (huffman_compress [65]) = some [] ∧
      huffman_decompress (huffman_compress [65]) ≠ some [65] := by
  refine ⟨by decide, ?_⟩
  intro h
  rw [(by decide : huffman_decompress (huffman_compress [65]) = some [])] at h
  simp at h

/-! ## C2: decode automaton transitions

The claim's first three transitions (bit 0 to the left child, bit 1 to the
right child, leaf destination emits and resets) match the code, but a NULL
destination does **not** signal a decode error: `huffman_tree_decode_bit`
returns 0 (more bits needed) with the cursor reset to NULL, and the error
indicator `-1` occurs exactly when both cursor and root are NULL (empty
tree). -/

/-- C2 counterexample: on the single-leaf tree built from a table whose only
entry is `0x41 -> 1`, feeding bit 0 makes the destination NULL (the root is a
leaf), yet the decode-bit operation returns status 0, not the error indicator
`-1` the claim requires. -/
theorem C2_null_transition_not_error :
    (huffman_tree_create ((List.replicate 256 0).set 65 1)).root =
        huffman_node_create 65 1 ∧
      (huffman_tree_decode_bit
          (huffman_tree_create ((List.replicate 256 0).set 65 1)) 0).1 = 0 ∧
      (huffman_tree_decode_bit
          (huffman_tree_create ((List.replicate 256 0).set 65 1)) 0).1 ≠ -1 := by
  refine ⟨by decide, by decide, ?_⟩
  intro h
  rw [(by decide : (huffman_tree_decode_bit
      (huffman_tree_create ((List.replicate 256 0).set 65 1)) 0).1 = 0)] at h
  simp at h

/-- C2 amended: for every tree and fed bit, starting from the effective node
(the cursor, or the root when the cursor is NULL), the decode-bit operation
inspects the left child on bit 0 and the right child on a nonzero bit; a leaf
destination emits that leaf's byte and resets the cursor; a NULL destination
does not signal an error but returns 0 (more bits needed) with the cursor
reset to NULL, so decoding restarts at the root; the error indicator `-1`
occurs exactly when cursor and root are both NULL, hence on a tree with a
non-NULL root the decompression loop is never terminated by a decode error. -/
theorem C2_decode_bit_transitions (t : HuffmanTreeType) (bit : Nat)
    (b f : Nat) (cl cr : HuffmanNode)
    (hstart : t.current = HuffmanNode.mk b f cl cr ∨
      (t.current = HuffmanNode.null ∧ t.root = HuffmanNode.mk b f cl cr)) :
    ((∃ db df, (if bit = 0 then cl else cr) = HuffmanNode.mk db df .null .null) →
        huffman_tree_decode_bit t bit =
          (1, { t with current := .null },
            some (if bit = 0 then cl else cr).byte)) ∧
    (∀ db df dl dr, (if bit = 0 then cl else cr) = HuffmanNode.mk db df dl dr →
        (dl ≠ HuffmanNode.null ∨ dr ≠ HuffmanNode.null) →
        huffman_tree_decode_bit t bit =
          (0, { t with current := if bit = 0 then cl else cr }, none)) ∧
    ((if bit = 0 then cl else cr) = HuffmanNode.null →
        huffman_tree_decode_bit t bit =
          (0, { t with current := .null }, none)) ∧
    (huffman_tree_decode_bit t bit).1 ≠ -1 := by
  have hstep : (match t.current with
      | .null => t.root
      | c => c) = HuffmanNode.mk b f cl cr := by
    rcases hstart with h | ⟨h1, h2⟩
    · rw [h]
    · rw [h1, h2]
  refine ⟨?_, ?_, ?_, ?_⟩
  · rintro ⟨db, df, hdest⟩
    simp only [huffman_tree_decode_bit, hstep, hdest]
    simp [HuffmanNode.byte]
  · intro db df dl dr hdest hne
    simp only [huffman_tree_decode_bit, hstep, hdest]
    have : ¬ (dl = HuffmanNode.null ∧ dr = HuffmanNode.null) := by
      rcases hne with h | h <;> simp [h]
    simp [this, ← hdest]
  · intro hdest
    simp only [huffman_tree_decode_bit, hstep, hdest]
  · simp only [huffman_tree_decode_bit, hstep]
    rcases hdest : (if bit = 0 then cl else cr) with _ | ⟨db, df, dl, dr⟩
    · simp
    · by_cases hleaf : dl = HuffmanNode.null ∧ dr = HuffmanNode.null <;>
        simp [hleaf]

/-- C2 witness: the amended theorem applied to the two-leaf tree built from
the table `0x41 -> 2, 0x42 -> 1`, whose root is internal, with the cursor at
the root and bit 1 fed: the destination is the leaf for `0x41`, which is
emitted with the cursor reset. -/
theorem C2_decode_bit_transitions_witness :
    huffman_tree_decode_bit
        (huffman_tree_create (((List.replicate 256 0).set 65 2).set 66 1)) 1 =
      (1, { huffman_tree_create (((List.replicate 256 0).set 65 2).set 66 1) with
              current := .null }, some 65) := by
  have h := (C2_decode_bit_transitions
    (huffman_tree_create (((List.replicate 256 0).set 65 2).set 66 1)) 1
    0 3 (huffman_node_create 66 1) (huffman_node_create 65 2)
    (Or.inr (by constructor <;> decide))).1
  have h2 := h ⟨65, 2, by decide⟩
  rw [h2]
  decide

/-! ## C3: degenerate single-symbol case

The compression half of the claim holds (one header entry plus sentinel, no
body bits), but decompression of that output emits nothing at all: the root
of the rebuilt tree is a leaf, every fed bit moves the cursor to NULL with
status 0, and the loop - which never consults the total-frequency count the
spec prescribes (the code's `huffman_tree_total_frequencies` is never called
by main.c) - stops at end of input with an empty output.  Bug in the code:
the README promises lossless compression. -/

/-- C3: for the input of three copies of `0x41`, the compressed output is
exactly the header entry `(0x41, 3)`, the sentinel and the padding line - no
body - but decompressing it yields the empty sequence instead of the three
copies the claim requires. -/
theorem C3_single_symbol_case :
    huffman_compress [65, 65, 65] =
        freq_entry_bytes 65 3 ++ [0, 0, 0, 0] ++ List.replicate 16 0 ∧
      huffman_decompress (huffman_compress [65, 65, 65]) = some [] ∧
      huffman_decompress (huffman_compress [65, 65, 65]) ≠
        some [65, 65, 65] := by
  refine ⟨by decide, by decide, ?_⟩
  intro h
  rw [(by decide : huffman_decompress (huffman_compress [65, 65, 65]) =
    some [])] at h
  simp at h

/-! ## C4: empty input

`huffman_tree_save` indeed writes only the 4-byte zero sentinel for the empty
tree, but `huffman_compress` then writes the 16-byte padding line before the
(empty) body, so the output file is 20 bytes, not the sentinel alone.  The
padding-line writer itself is absent from src/ and is modelled from the
spec/decompressor as 16 bytes (see `bsw_write_padding_line`). -/

/-- C4 counterexample: compressing the empty sequence does not produce the
4-byte sentinel alone: the output has 20 bytes. -/
theorem C4_not_sentinel_alone :
    huffman_compress [] ≠ [0, 0, 0, 0] := by
  intro h
  rw [(by decide : huffman_compress [] = List.replicate 20 0)] at h
  simp at h

/-- C4 amended: compressing the empty sequence produces exactly the 4-byte
zero-frequency sentinel followed by the 16-byte padding line, and nothing
else - no header entries before the sentinel and no body after the padding
line. -/
theorem C4_empty_input_output :
    huffman_compress [] = [0, 0, 0, 0] ++ List.replicate 16 0 ∧
      (huffman_compress []).length = 20 := by
  constructor <;> decide

/-! ## C5: sticky error state

The claim fails: `bsw_write_byte` on a byte-aligned writer, `bsw_flush` and
`bsw_align_to_byte` perform no sticky-error check and can succeed - and
really perform the operation - while the error flag is set.  All the other
stream operations (bit and multi-bit and multi-byte writes, byte writes at
unaligned positions, and every reader operation) do check the flag and fail
without acting. -/

/-- C5 counterexample: on a byte-aligned writer whose sticky error flag is
set, `bsw_write_byte` succeeds and actually buffers the byte (and `bsw_flush`
and `bsw_align_to_byte` also report success), contradicting the claim that
every subsequent operation fails until the flag is cleared. -/
theorem C5_error_not_sticky_for_write_byte :
    erroredWriter.has_error = true ∧
      (bsw_write_byte erroredWriter 7).1 = true ∧
      (bsw_write_byte erroredWriter 7).2.buffer = [7] ∧
      (bsw_flush erroredWriter).1 = true ∧
      (bsw_align_to_byte erroredWriter).1 = true := by
  decide

/-- C5 amended: once the sticky error flag of a stream is set, single-bit
writes, multi-bit writes, multi-byte writes and byte writes at unaligned
positions, as well as every reader operation (bit, bits, byte, bytes, align),
fail and leave the stream unchanged until the flag is explicitly cleared;
however `bsw_write_byte` at a byte-aligned position, `bsw_flush` and
`bsw_align_to_byte` perform no such check and may succeed while the flag
stays set. -/
theorem C5_sticky_error_checked_operations
    (w : BitStreamWriter) (r : BitStreamReader)
    (hw : w.has_error = true) (hr : r.has_error = true)
    (bit byte n : Nat) (values data : List Nat) :
    bsw_write_bit w bit = (false, w) ∧
      bsw_write_bits w values n = (false, w) ∧
      bsw_write_bytes w data = (false, w) ∧
      (w.bit_pos ≠ 0 → bsw_write_byte w byte = (false, w)) ∧
      bsr_read_bit r = (none, r) ∧
      bsr_read_bits r n = ([], r) ∧
      bsr_read_byte r = (none, r) ∧
      bsr_read_bytes r n = ([], r) ∧
      bsr_align_to_byte r = (false, r) := by
  refine ⟨?_, ?_, ?_, ?_, ?_, ?_, ?_, ?_, ?_⟩
  · simp [bsw_write_bit, hw]
  · simp [bsw_write_bits, hw]
  · simp [bsw_write_bytes, hw]
  · intro hpos
    simp [bsw_write_byte, hpos, bsw_write_bits, hw]
  · simp [bsr_read_bit, hr]
  · simp [bsr_read_bits, hr]
  · simp [bsr_read_byte, hr]
  · simp [bsr_read_bytes, hr]
  · simp [bsr_align_to_byte, hr]

/-! ## Infrastructure for C7: codes are leaf paths, and leaf paths are
prefix-free -/

theorem getD_set_self {α : Type} (X : List α) (b : Nat) (v d : α)
    (h : b < X.length) : (X.set b v).getD b d = v := by
  rw [List.getD_eq_getElem?_getD, List.getElem?_set_self h]
  rfl

theorem getD_set_ne {α : Type} (X : List α) (i j : Nat) (v d : α)
    (h : i ≠ j) : (X.set i v).getD j d = X.getD j d := by
  rw [List.getD_eq_getElem?_getD, List.getElem?_set_ne h,
    ← List.getD_eq_getElem?_getD]

theorem getD_set_self_congr {α : Type} (X Y : List α) (b : Nat) (v d : α)
    (h : X.length = Y.length) :
    (X.set b v).getD b d = (Y.set b v).getD b d := by
  by_cases hb : b < X.length
  · rw [getD_set_self _ _ _ _ hb, getD_set_self _ _ _ _ (h ▸ hb)]
  · rw [List.set_eq_of_length_le (by omega), List.set_eq_of_length_le (by omega)]
    rw [List.getD_eq_default _ _ (by omega), List.getD_eq_default _ _ (by omega)]

theorem nodeAt_null (p : List Nat) : nodeAt .null p = .null := by
  cases p <;> rfl

theorem nodeAt_append (n : HuffmanNode) (p q : List Nat) :
    nodeAt n (p ++ q) = nodeAt (nodeAt n p) q := by
  induction p generalizing n with
  | nil => rfl
  | cons b p ih =>
    cases n with
    | null => simp [nodeAt, nodeAt_null]
    | mk b0 f l r => simp [nodeAt, ih]

/-- Two root-to-leaf paths where one is a prefix of the other are equal: the
node at the shorter path is a leaf, and a leaf has no descendants. -/
theorem leaf_path_prefix_eq {root : HuffmanNode} {pa pb : List Nat}
    {a b fa fb : Nat}
    (ha : nodeAt root pa = HuffmanNode.mk a fa .null .null)
    (hb : nodeAt root pb = HuffmanNode.mk b fb .null .null)
    (hpre : pa <+: pb) : pa = pb := by
  obtain ⟨q, hq⟩ := hpre
  cases q with
  | nil => simp [← hq]
  | cons x xs =>
    exfalso
    have : nodeAt root pb = nodeAt (nodeAt root pa) (x :: xs) := by
      rw [← hq, nodeAt_append]
    rw [ha] at this
    simp only [nodeAt] at this
    by_cases hx : x = 0 <;> simp [hx, nodeAt_null, this] at hb

theorem generate_codes_rec_length (n : HuffmanNode) (code : List Nat)
    (acc : List (Option (List Nat)) × List Nat) :
    (generate_codes_rec n code acc).1.length = acc.1.length ∧
      (generate_codes_rec n code acc).2.length = acc.2.length := by
  induction n generalizing code acc with
  | null => simp [generate_codes_rec]
  | mk b f l r ihl ihr =>
    by_cases hleaf : l = HuffmanNode.null ∧ r = HuffmanNode.null
    · simp [generate_codes_rec, hleaf]
    · simp only [generate_codes_rec, if_neg hleaf]
      rcases ihl (code ++ [0]) acc with ⟨h1, h2⟩
      rcases ihr (code ++ [1]) (generate_codes_rec l (code ++ [0]) acc)
        with ⟨h3, h4⟩
      omega

/-- What `generate_codes_rec` does to the entry for byte value `b`: either it
is untouched, or there is a 0/1 path `q` from the current node to a leaf with
byte value `b` such that the entry holds the packed code of `code ++ q` and
the length entry its length (modulo the out-of-range no-op of `set`, which
the `set`-form makes uniform). -/
theorem generate_codes_rec_spec (n : HuffmanNode) (code : List Nat)
    (acc : List (Option (List Nat)) × List Nat) (b : Nat) :
    ((generate_codes_rec n code acc).1.getD b none = acc.1.getD b none ∧
       (generate_codes_rec n code acc).2.getD b 0 = acc.2.getD b 0) ∨
    (∃ q f, nodeAt n q = HuffmanNode.mk b f .null .null ∧
       (∀ x ∈ q, x = 0 ∨ x = 1) ∧
       (generate_codes_rec n code acc).1.getD b none =
         (acc.1.set b (some (pack_code (code ++ q)))).getD b none ∧
       (generate_codes_rec n code acc).2.getD b 0 =
         (acc.2.set b (code ++ q).length).getD b 0) := by
  induction n generalizing code acc with
  | null => exact Or.inl ⟨rfl, rfl⟩
  | mk b0 f l r ihl ihr =>
    by_cases hleaf : l = HuffmanNode.null ∧ r = HuffmanNode.null
    · by_cases hb : b0 = b
      · right
        refine ⟨[], f, ?_, by simp, ?_, ?_⟩
        · simp [nodeAt, hleaf.1, hleaf.2, hb]
        · simp [generate_codes_rec, hleaf, hb]
        · simp [generate_codes_rec, hleaf, hb]
      · left
        constructor
        · simp only [generate_codes_rec, if_pos hleaf]
          exact getD_set_ne _ _ _ _ _ hb
        · simp only [generate_codes_rec, if_pos hleaf]
          exact getD_set_ne _ _ _ _ _ hb
    · simp only [generate_codes_rec, if_neg hleaf]
      rcases ihr (code ++ [1]) (generate_codes_rec l (code ++ [0]) acc) with
        ⟨hr1, hr2⟩ | ⟨q, fq, hpath, hbits, hc, hl⟩
      · rcases ihl (code ++ [0]) acc with
          ⟨hl1, hl2⟩ | ⟨q, fq, hpath, hbits, hc, hl⟩
        · exact Or.inl ⟨hr1.trans hl1, hr2.trans hl2⟩
        · right
          refine ⟨0 :: q, fq, ?_, ?_, ?_, ?_⟩
          · simpa [nodeAt] using hpath
          · intro x hx
            rcases List.mem_cons.mp hx with hx | hx
            · exact Or.inl hx
            · exact hbits x hx
          · rw [hr1, hc]
            rw [(by simp : code ++ 0 :: q = (code ++ [0]) ++ q)]
          · rw [hr2, hl]
            rw [(by simp : code ++ 0 :: q = (code ++ [0]) ++ q)]
      · right
        refine ⟨1 :: q, fq, ?_, ?_, ?_, ?_⟩
        · simpa [nodeAt] using hpath
        · intro x hx
          rcases List.mem_cons.mp hx with hx | hx
          · exact Or.inr hx
          · exact hbits x hx
        · rw [hc, (by simp : code ++ 1 :: q = (code ++ [1]) ++ q)]
          exact getD_set_self_congr _ _ _ _ _
            (generate_codes_rec_length l (code ++ [0]) acc).1
        · rw [hl, (by simp : code ++ 1 :: q = (code ++ [1]) ++ q)]
          exact getD_set_self_congr _ _ _ _ _
            (generate_codes_rec_length l (code ++ [0]) acc).2

/-- Bits of the `foldl` in `pack_code_byte`: position `m` of the result is
set iff it was set in the accumulator or some processed index `j` satisfied
the guard with `7 - j = m`. -/
theorem pack_fold_testBit (code : List Nat) (k : Nat) (js : List Nat)
    (acc : Nat) (m : Nat) :
    ((js.foldl
        (fun acc j =>
          if k * 8 + j < code.length ∧ code.getD (k * 8 + j) 0 ≠ 0 then
            acc ||| (1 <<< (7 - j))
          else acc)
        acc).testBit m) =
      (acc.testBit m ||
        js.any (fun j =>
          decide (k * 8 + j < code.length ∧ code.getD (k * 8 + j) 0 ≠ 0) &&
            decide (7 - j = m))) := by
  induction js generalizing acc with
  | nil => simp [List.any_nil]
  | cons j js ih =>
    rw [List.foldl_cons, List.any_cons, ih]
    have hstep : (if k * 8 + j < code.length ∧ code.getD (k * 8 + j) 0 ≠ 0 then
        acc ||| (1 <<< (7 - j)) else acc).testBit m =
        (acc.testBit m ||
          (decide (k * 8 + j < code.length ∧ code.getD (k * 8 + j) 0 ≠ 0) &&
            decide (7 - j = m))) := by
      by_cases hP : k * 8 + j < code.length ∧ code.getD (k * 8 + j) 0 ≠ 0
      · rw [if_pos hP, Nat.testBit_or, Nat.shiftLeft_eq, one_mul,
          Nat.testBit_two_pow, decide_eq_true hP, Bool.true_and]
      · rw [if_neg hP, decide_eq_false hP, Bool.false_and, Bool.or_false]
    rw [hstep, Bool.or_assoc]

/-- Bit `m` (with `m < 8`) of packed byte `k` reads position `k*8 + (7-m)` of
the 0/1 path buffer. -/
theorem pack_code_byte_testBit (code : List Nat) (k m : Nat) (hm : m < 8) :
    (pack_code_byte code k).testBit m =
      (decide (k * 8 + (7 - m) < code.length) &&
        decide (code.getD (k * 8 + (7 - m)) 0 ≠ 0)) := by
  unfold pack_code_byte
  rw [pack_fold_testBit]
  rw [Nat.zero_testBit, Bool.false_or]
  rcases (by omega : m = 0 ∨ m = 1 ∨ m = 2 ∨ m = 3 ∨ m = 4 ∨ m = 5 ∨ m = 6 ∨ m = 7)
    with h | h | h | h | h | h | h | h <;>
    subst h <;>
    simp [List.range_succ, List.any_append, Bool.or_comm, Bool.and_comm,
      decide_eq_true_eq]

/-- Transmitting a packed code of its recorded length recovers exactly the
0/1 path it was packed from. -/
theorem code_bit_pattern_pack (p : List Nat)
    (hbits : ∀ x ∈ p, x = 0 ∨ x = 1) :
    code_bit_pattern (pack_code p) p.length = p := by
  apply List.ext_getElem
  · simp [code_bit_pattern]
  · intro i h1 h2
    simp only [code_bit_pattern, List.getElem_map, List.getElem_range]
    have hi : i < p.length := h2
    have hdivlt : i / 8 < (p.length + 7) / 8 := by omega
    have hbyte : (pack_code p).getD (i / 8) 0 = pack_code_byte p (i / 8) := by
      unfold pack_code
      rw [List.getD_eq_getElem?_getD, List.getElem?_append,
        if_pos (by simpa using hdivlt), List.getElem?_map,
        List.getElem?_range hdivlt]
      rfl
    rw [hbyte]
    have hshift : (pack_code_byte p (i / 8) >>> (7 - i % 8)) &&& 1 =
        if (pack_code_byte p (i / 8)).testBit (7 - i % 8) then 1 else 0 := by
      rw [Nat.and_one_is_mod, Nat.shiftRight_eq_div_pow, Nat.testBit_to_div_mod]
      rcases Nat.mod_two_eq_zero_or_one (pack_code_byte p (i / 8) / 2 ^ (7 - i % 8))
        with h | h <;> simp [h]
    rw [hshift, pack_code_byte_testBit _ _ _ (by omega)]
    have hidx : i / 8 * 8 + (7 - (7 - i % 8)) = i := by omega
    rw [hidx]
    have hget : p.getD i 0 = p[i] := by
      rw [List.getD_eq_getElem?_getD, List.getElem?_eq_getElem hi]
      rfl
    rcases hbits p[i] (List.getElem_mem hi) with h | h <;>
      simp [hi, hget, h]

/-- A code stored by the generator for byte value `x` is the packed form of a
0/1 root-to-leaf path ending in a leaf carrying `x`, and the recorded length
is that path's length. -/
theorem get_code_eq_leaf_path (t : List Nat) (x : Nat) (c : List Nat)
    (h : huffman_tree_get_code (huffman_tree_create t) x = some c) :
    ∃ p fx, nodeAt (huffman_tree_create t).root p =
        HuffmanNode.mk x fx .null .null ∧
      (∀ y ∈ p, y = 0 ∨ y = 1) ∧ c = pack_code p ∧
      huffman_tree_get_code_length (huffman_tree_create t) x = p.length := by
  have hcodes : (huffman_tree_create t).codes =
      (generate_codes_rec (huffman_tree_create t).root []
        (List.replicate POSSIBLE_BYTES none, List.replicate POSSIBLE_BYTES 0)).1 :=
    rfl
  have hlens : (huffman_tree_create t).code_lengths =
      (generate_codes_rec (huffman_tree_create t).root []
        (List.replicate POSSIBLE_BYTES none, List.replicate POSSIBLE_BYTES 0)).2 :=
    rfl
  rcases generate_codes_rec_spec (huffman_tree_create t).root []
      (List.replicate POSSIBLE_BYTES none, List.replicate POSSIBLE_BYTES 0) x with
    ⟨h1, _⟩ | ⟨q, fq, hpath, hbits, hc, hl⟩
  · exfalso
    rw [huffman_tree_get_code, hcodes, h1] at h
    by_cases hx : x < POSSIBLE_BYTES
    · rw [List.getD_eq_getElem?_getD, List.getElem?_replicate] at h
      simp [hx] at h
    · rw [List.getD_eq_default _ _ (by simpa using not_lt.mp hx)] at h
      simp at h
  · refine ⟨q, fq, hpath, hbits, ?_, ?_⟩
    · rw [huffman_tree_get_code, hcodes, hc] at h
      by_cases hx : x < POSSIBLE_BYTES
      · rw [getD_set_self _ _ _ _ (by simpa using hx)] at h
        simpa using h.symm
      · exfalso
        rw [List.set_eq_of_length_le (by simpa using not_lt.mp hx),
          List.getD_eq_default _ _ (by simpa using not_lt.mp hx)] at h
        simp at h
    · rw [huffman_tree_get_code_length, hlens, hl]
      have hx : x < POSSIBLE_BYTES := by
        by_contra hx
        rw [huffman_tree_get_code, hcodes, hc,
          List.set_eq_of_length_le (by simpa using not_lt.mp hx),
          List.getD_eq_default _ _ (by simpa using not_lt.mp hx)] at h
        simp at h
      rw [getD_set_self _ _ _ _ (by simpa using hx)]
      simp

/-- C7: prefix-free codes: for every frequency table and every pair of
distinct byte values that both receive a code from the tree's code
generation, neither code's bit pattern (read to its recorded length exactly
as `bsw_write_bits` transmits it) is a prefix of the other's. -/
theorem C7_prefix_free_codes (t : List Nat) (a b : Nat) (hab : a ≠ b)
    (ca cb : List Nat)
    (hca : huffman_tree_get_code (huffman_tree_create t) a = some ca)
    (hcb : huffman_tree_get_code (huffman_tree_create t) b = some cb) :
    ¬ (code_bit_pattern ca (huffman_tree_get_code_length (huffman_tree_create t) a) <+:
        code_bit_pattern cb (huffman_tree_get_code_length (huffman_tree_create t) b)) ∧
    ¬ (code_bit_pattern cb (huffman_tree_get_code_length (huffman_tree_create t) b) <+:
        code_bit_pattern ca (huffman_tree_get_code_length (huffman_tree_create t) a)) := by
  obtain ⟨pa, fa, hpa, hba, hca2, hla⟩ := get_code_eq_leaf_path t a ca hca
  obtain ⟨pb, fb, hpb, hbb, hcb2, hlb⟩ := get_code_eq_leaf_path t b cb hcb
  have hne : pa ≠ pb := by
    intro hEq
    rw [hEq, hpb] at hpa
    exact hab (by injection hpa.symm)
  rw [hca2, hla, code_bit_pattern_pack pa hba,
    hcb2, hlb, code_bit_pattern_pack pb hbb]
  constructor
  · intro hpre
    exact hne (leaf_path_prefix_eq hpa hpb hpre)
  · intro hpre
    exact hne (leaf_path_prefix_eq hpb hpa hpre).symm

/-- C7 witness: in the tree built from the table `0x41 -> 2, 0x42 -> 1`, both
bytes receive one-bit codes and neither pattern is a prefix of the other. -/
theorem C7_prefix_free_codes_witness :
    ¬ (code_bit_pattern [128, 0]
        (huffman_tree_get_code_length
          (huffman_tree_create (((List.replicate 256 0).set 65 2).set 66 1)) 65) <+:
        code_bit_pattern [0, 0]
          (huffman_tree_get_code_length
            (huffman_tree_create (((List.replicate 256 0).set 65 2).set 66 1)) 66)) := by
  exact (C7_prefix_free_codes (((List.replicate 256 0).set 65 2).set 66 1)
    65 66 (by decide) [128, 0] [0, 0] (by decide) (by decide)).1

/-- C5 witness: the amended theorem evaluated on concrete errored stream
states (writer additionally unaligned so that the byte-write conjunct
applies). -/
theorem C5_sticky_error_checked_operations_witness :
    bsw_write_bit { erroredWriter with bit_pos := 3 } 1 =
        (false, { erroredWriter with bit_pos := 3 }) ∧
      bsw_write_byte { erroredWriter with bit_pos := 3 } 7 =
        (false, { erroredWriter with bit_pos := 3 }) ∧
      bsr_read_bit erroredReader = (none, erroredReader) := by
  have h := C5_sticky_error_checked_operations
    { erroredWriter with bit_pos := 3 } erroredReader rfl rfl 1 7 4 [] []
  exact ⟨h.1, h.2.2.2.1 (by decide), h.2.2.2.2.1⟩

/-! ## Infrastructure for C8/C9/C6/C10: the heap operations permute the
stored elements -/

theorem getD_eq_getElem {α : Type} (l : List α) (i : Nat) (d : α)
    (h : i < l.length) : l.getD i d = l[i] := by
  rw [List.getD_eq_getElem?_getD, List.getElem?_eq_getElem h]
  rfl

theorem count_set_add {α : Type} [DecidableEq α] (l : List α) (i : Nat)
    (v x : α) (hi : i < l.length) :
    (l.set i v).count x + (if l[i] = x then 1 else 0) =
      l.count x + (if v = x then 1 else 0) := by
  induction l generalizing i with
  | nil => simp at hi
  | cons a l ih =>
    cases i with
    | zero =>
      simp only [List.set_cons_zero, List.count_cons, List.getElem_cons_zero,
        beq_iff_eq]
      split_ifs <;> omega
    | succ i =>
      have hi2 : i < l.length := by simpa using hi
      simp only [List.set_cons_succ, List.count_cons, List.getElem_cons_succ,
        beq_iff_eq]
      have h := ih i hi2
      split_ifs at h ⊢ <;> omega

theorem heapArraySwap_count {α : Type} [DecidableEq α] [Inhabited α]
    (l : List α) (i j : Nat) (x : α) (hi : i < l.length) (hj : j < l.length) :
    (heapArraySwap l i j).count x = l.count x := by
  unfold heapArraySwap
  have hE1 := count_set_add l i (l.getD j default) x hi
  have hE2 := count_set_add (l.set i (l.getD j default)) j (l.getD i default) x
    (by simpa using hj)
  have hjb : j < (l.set i (l.getD j default)).length := by simpa using hj
  have hgetj : (l.set i (l.getD j default))[j] =
      l.getD j default := by
    by_cases hij : i = j
    · subst hij
      exact List.getElem_set_self (by simpa using hi)
    · rw [List.getElem_set_ne hij, ← getD_eq_getElem _ _ _ hj]
  rw [hgetj] at hE2
  have hbi : (if l.getD i default = x then 1 else 0) =
      (if l[i] = x then 1 else 0) := by
    rw [getD_eq_getElem _ _ _ hi]
  rw [hbi] at hE2
  omega

theorem heapArraySwap_perm {α : Type} [Inhabited α] (l : List α) (i j : Nat)
    (hi : i < l.length) (hj : j < l.length) :
    List.Perm (heapArraySwap l i j) l := by
  classical
  rw [List.perm_iff_count]
  intro x
  exact heapArraySwap_count l i j x hi hj

theorem heapArraySwap_length {α : Type} [Inhabited α] (l : List α) (i j : Nat) :
    (heapArraySwap l i j).length = l.length := by
  simp [heapArraySwap]

theorem heapify_up_perm {α : Type} [Inhabited α] (cmp : α → α → Int)
    (fuel : Nat) (l : List α) (i : Nat) (hi : i < l.length) :
    List.Perm (heapify_up cmp fuel l i) l := by
  induction fuel generalizing l i with
  | zero => exact List.Perm.refl l
  | succ fuel ih =>
    rw [heapify_up]
    by_cases h0 : i = 0
    · simp [h0]
    · rw [if_neg h0]
      by_cases hc : cmp (l.getD i default) (l.getD ((i - 1) / 2) default) < 0
      · rw [if_pos hc]
        have hp : (i - 1) / 2 < l.length := by omega
        exact (ih (heapArraySwap l i ((i - 1) / 2)) ((i - 1) / 2)
          (by rw [heapArraySwap_length]; omega)).trans
          (heapArraySwap_perm l i ((i - 1) / 2) hi hp)
      · rw [if_neg hc]

theorem heapify_down_succ_cases {α : Type} [Inhabited α] (cmp : α → α → Int)
    (fuel : Nat) (l : List α) (i : Nat) :
    (heapify_down cmp (fuel + 1) l i = l ∧
      ¬ (2 * i + 1 < l.length ∧
          cmp (l.getD (2 * i + 1) default) (l.getD i default) < 0) ∧
      ¬ (2 * i + 2 < l.length ∧
          cmp (l.getD (2 * i + 2) default) (l.getD i default) < 0)) ∨
    (2 * i + 1 < l.length ∧
      cmp (l.getD (2 * i + 1) default) (l.getD i default) < 0 ∧
      ¬ (2 * i + 2 < l.length ∧
          cmp (l.getD (2 * i + 2) default) (l.getD (2 * i + 1) default) < 0) ∧
      heapify_down cmp (fuel + 1) l i =
        heapify_down cmp fuel (heapArraySwap l i (2 * i + 1)) (2 * i + 1)) ∨
    (2 * i + 1 < l.length ∧
      cmp (l.getD (2 * i + 1) default) (l.getD i default) < 0 ∧
      2 * i + 2 < l.length ∧
      cmp (l.getD (2 * i + 2) default) (l.getD (2 * i + 1) default) < 0 ∧
      heapify_down cmp (fuel + 1) l i =
        heapify_down cmp fuel (heapArraySwap l i (2 * i + 2)) (2 * i + 2)) ∨
    (¬ (2 * i + 1 < l.length ∧
          cmp (l.getD (2 * i + 1) default) (l.getD i default) < 0) ∧
      2 * i + 2 < l.length ∧
      cmp (l.getD (2 * i + 2) default) (l.getD i default) < 0 ∧
      heapify_down cmp (fuel + 1) l i =
        heapify_down cmp fuel (heapArraySwap l i (2 * i + 2)) (2 * i + 2)) := by
  rw [heapify_down]
  by_cases hP1 : 2 * i + 1 < l.length ∧
      cmp (l.getD (2 * i + 1) default) (l.getD i default) < 0
  · rw [if_pos hP1]
    by_cases hP2 : 2 * i + 2 < l.length ∧
        cmp (l.getD (2 * i + 2) default) (l.getD (2 * i + 1) default) < 0
    · rw [if_pos hP2, if_pos (by omega : 2 * i + 2 ≠ i)]
      exact Or.inr (Or.inr (Or.inl ⟨hP1.1, hP1.2, hP2.1, hP2.2, rfl⟩))
    · rw [if_neg hP2, if_pos (by omega : 2 * i + 1 ≠ i)]
      exact Or.inr (Or.inl ⟨hP1.1, hP1.2, hP2, rfl⟩)
  · rw [if_neg hP1]
    by_cases hP2 : 2 * i + 2 < l.length ∧
        cmp (l.getD (2 * i + 2) default) (l.getD i default) < 0
    · rw [if_pos hP2, if_pos (by omega : 2 * i + 2 ≠ i)]
      exact Or.inr (Or.inr (Or.inr ⟨hP1, hP2.1, hP2.2, rfl⟩))
    · rw [if_neg hP2, if_neg (by omega : ¬ i ≠ i)]
      exact Or.inl ⟨rfl, hP1, hP2⟩

theorem heapify_down_perm {α : Type} [Inhabited α] (cmp : α → α → Int)
    (fuel : Nat) (l : List α) (i : Nat) :
    List.Perm (heapify_down cmp fuel l i) l := by
  induction fuel generalizing l i with
  | zero => exact List.Perm.refl l
  | succ fuel ih =>
    rcases heapify_down_succ_cases cmp fuel l i with
      ⟨heq, _, _⟩ | ⟨h1, _, _, heq⟩ | ⟨h1, _, h2, _, heq⟩ | ⟨_, h2, _, heq⟩
    · rw [heq]
    · rw [heq]
      exact (ih _ _).trans (heapArraySwap_perm l i (2 * i + 1) (by omega) h1)
    · rw [heq]
      exact (ih _ _).trans (heapArraySwap_perm l i (2 * i + 2) (by omega) h2)
    · rw [heq]
      exact (ih _ _).trans (heapArraySwap_perm l i (2 * i + 2) (by omega) h2)

theorem ptr_pq_insert_perm {α : Type} [Inhabited α] (cmp : α → α → Int)
    (l : List α) (x : α) :
    List.Perm (ptr_pq_insert cmp l x) (x :: l) := by
  unfold ptr_pq_insert
  exact (heapify_up_perm cmp l.length (l ++ [x]) l.length (by simp)).trans
    (List.perm_append_singleton x l)

theorem ptr_pq_extract_min_empty {α : Type} [Inhabited α] (cmp : α → α → Int) :
    ptr_pq_extract_min cmp ([] : List α) = (none, []) := rfl

/-- `ptr_pq_extract_min` on a nonempty heap returns the root and leaves a
permutation of the remaining elements. -/
theorem ptr_pq_extract_min_cons {α : Type} [Inhabited α] (cmp : α → α → Int)
    (h0 : α) (rest : List α) :
    (ptr_pq_extract_min cmp (h0 :: rest)).1 = some h0 ∧
      List.Perm (ptr_pq_extract_min cmp (h0 :: rest)).2 rest := by
  unfold ptr_pq_extract_min
  cases rest with
  | nil => simp
  | cons r1 rs =>
    have hlen : (h0 :: r1 :: rs).length = rs.length + 2 := by simp
    rw [if_neg (by simp)]
    simp only [hlen]
    rw [if_pos (by omega)]
    refine ⟨by rw [getD_eq_getElem _ _ _ (by simp)]; rfl, ?_⟩
    have hset : ((h0 :: r1 :: rs).set 0
        ((h0 :: r1 :: rs).getD (rs.length + 2 - 1) default)).take (rs.length + 2 - 1) =
        ((h0 :: r1 :: rs).getD (rs.length + 1) default) :: (r1 :: rs).take rs.length := by
      simp
    have hlast : (h0 :: r1 :: rs).getD (rs.length + 1) default =
        (r1 :: rs).getLast (by simp) := by
      rw [getD_eq_getElem _ _ _ (by simp), List.getLast_eq_getElem]
      simp
    have htake : (r1 :: rs).take rs.length = (r1 :: rs).dropLast := by
      rw [List.dropLast_eq_take]
      simp
    refine (heapify_down_perm cmp (rs.length + 2 - 1) _ 0).trans ?_
    rw [hset, hlast, htake]
    have hperm1 : List.Perm
        ((r1 :: rs).getLast (by simp) :: (r1 :: rs).dropLast)
        ((r1 :: rs).dropLast ++ [(r1 :: rs).getLast (by simp)]) :=
      (List.perm_append_singleton _ _).symm
    have heq : (r1 :: rs).dropLast ++ [(r1 :: rs).getLast (by simp)] =
        r1 :: rs := List.dropLast_append_getLast (by simp)
    have hperm2 : List.Perm
        ((r1 :: rs).dropLast ++ [(r1 :: rs).getLast (by simp)]) (r1 :: rs) := by
      rw [heq]
    exact hperm1.trans hperm2

/-! ## Infrastructure for C9: the heap order invariant -/

/-- A comparator that is a total preorder (as `ptr_pq.h` documents) is
reflexively `≤ 0`. -/
theorem cmp_refl_le {α : Type} (cmp : α → α → Int)
    (hasym : ∀ a b, 0 ≤ cmp a b → cmp b a ≤ 0) (a : α) : cmp a a ≤ 0 := by
  rcases le_or_lt 0 (cmp a a) with h | h
  · exact hasym a a h
  · exact le_of_lt h

theorem heapArraySwap_getD_fst {α : Type} [Inhabited α] (l : List α)
    (i j : Nat) (hi : i < l.length) (hj : j < l.length) :
    (heapArraySwap l i j).getD i default = l.getD j default := by
  unfold heapArraySwap
  by_cases hij : i = j
  · subst hij
    exact getD_set_self _ _ _ _ (by simpa using hi)
  · rw [getD_set_ne _ _ _ _ _ (Ne.symm hij), getD_set_self _ _ _ _ hi]

theorem heapArraySwap_getD_snd {α : Type} [Inhabited α] (l : List α)
    (i j : Nat) (hj : j < l.length) :
    (heapArraySwap l i j).getD j default = l.getD i default := by
  unfold heapArraySwap
  exact getD_set_self _ _ _ _ (by simpa using hj)

theorem heapArraySwap_getD_other {α : Type} [Inhabited α] (l : List α)
    (i j k : Nat) (hk1 : k ≠ i) (hk2 : k ≠ j) :
    (heapArraySwap l i j).getD k default = l.getD k default := by
  unfold heapArraySwap
  rw [getD_set_ne _ _ _ _ _ (Ne.symm hk2), getD_set_ne _ _ _ _ _ (Ne.symm hk1)]

theorem heapify_up_isMinHeap {α : Type} [Inhabited α] (cmp : α → α → Int)
    (htrans : ∀ a b c, cmp a b ≤ 0 → cmp b c ≤ 0 → cmp a c ≤ 0)
    (hasym : ∀ a b, 0 ≤ cmp a b → cmp b a ≤ 0) :
    ∀ (fuel : Nat) (l : List α) (i : Nat), i ≤ fuel → (i < l.length ∨ i = 0) →
      SiftUpInv cmp l i → IsMinHeap cmp (heapify_up cmp fuel l i) := by
  intro fuel
  induction fuel with
  | zero =>
    intro l i hif _ hinv
    have hi0 : i = 0 := by omega
    subst hi0
    intro a j hj hjl
    exact hinv.1 a j hj hjl (by omega)
  | succ fuel ih =>
    intro l i hif hirange hinv
    rw [heapify_up]
    by_cases h0 : i = 0
    · rw [if_pos h0]
      subst h0
      intro a j hj hjl
      exact hinv.1 a j hj hjl (by omega)
    · rw [if_neg h0]
      have hipos : 0 < i := by omega
      have hilen : i < l.length := by omega
      have hplen : (i - 1) / 2 < l.length := by omega
      by_cases hc : cmp (l.getD i default) (l.getD ((i - 1) / 2) default) < 0
      · rw [if_pos hc]
        have hswlen : (heapArraySwap l i ((i - 1) / 2)).length = l.length :=
          heapArraySwap_length l i ((i - 1) / 2)
        refine ih (heapArraySwap l i ((i - 1) / 2)) ((i - 1) / 2)
          (by omega) (by omega) ?_
        set p := (i - 1) / 2 with hp
        have hgi : (heapArraySwap l i p).getD i default = l.getD p default :=
          heapArraySwap_getD_fst l i p hilen hplen
        have hgp : (heapArraySwap l i p).getD p default = l.getD i default :=
          heapArraySwap_getD_snd l i p hplen
        constructor
        · intro a j hj hjl hjp
          rw [hswlen] at hjl
          by_cases hji : j = i
          · subst hji
            have ha : a = p := by omega
            subst ha
            rw [hgp, hgi]
            exact le_of_lt hc
          · have hgj : (heapArraySwap l i p).getD j default = l.getD j default :=
              heapArraySwap_getD_other l i p j hji hjp
            rw [hgj]
            by_cases hap : a = p
            · subst hap
              rw [hgp]
              exact htrans _ _ _ (le_of_lt hc) (hinv.1 p j hj hjl hji)
            · by_cases hai : a = i
              · subst hai
                rw [hgi]
                exact hinv.2 hipos j hj hjl
              · have hga : (heapArraySwap l i p).getD a default = l.getD a default :=
                  heapArraySwap_getD_other l i p a hai hap
                rw [hga]
                exact hinv.1 a j hj hjl hji
        · intro hppos j hj hjl
          rw [hswlen] at hjl
          have hq : (p - 1) / 2 ≠ i := by omega
          have hq2 : (p - 1) / 2 ≠ p := by omega
          have hgq : (heapArraySwap l i p).getD ((p - 1) / 2) default =
              l.getD ((p - 1) / 2) default :=
            heapArraySwap_getD_other l i p ((p - 1) / 2) hq hq2
          rw [hgq]
          have hpedge : p = 2 * ((p - 1) / 2) + 1 ∨ p = 2 * ((p - 1) / 2) + 2 := by
            omega
          have hqp : cmp (l.getD ((p - 1) / 2) default) (l.getD p default) ≤ 0 :=
            hinv.1 ((p - 1) / 2) p hpedge hplen (by omega)
          by_cases hji : j = i
          · subst hji
            rw [hgi]
            exact hqp
          · have hjp : j ≠ p := by omega
            have hgj : (heapArraySwap l i p).getD j default = l.getD j default :=
              heapArraySwap_getD_other l i p j hji hjp
            rw [hgj]
            exact htrans _ _ _ hqp (hinv.1 p j hj hjl hji)
      · rw [if_neg hc]
        intro a j hj hjl
        by_cases hji : j = i
        · have ha : a = (i - 1) / 2 := by omega
          rw [hji, ha]
          exact hasym (l.getD i default) (l.getD ((i - 1) / 2) default)
            (by omega)
        · exact hinv.1 a j hj hjl hji

/-- The common step of the `heapify_down` correctness proof: swapping the
cursor with a `cmp`-least child re-establishes the sift-down invariant at
that child. -/
theorem siftDownInv_swap {α : Type} [Inhabited α] (cmp : α → α → Int)
    (l : List α) (i s2 : Nat)
    (hs2e : s2 = 2 * i + 1 ∨ s2 = 2 * i + 2) (hs2l : s2 < l.length)
    (hkey : cmp (l.getD s2 default) (l.getD i default) ≤ 0)
    (hother : ∀ o, (o = 2 * i + 1 ∨ o = 2 * i + 2) → o < l.length → o ≠ s2 →
      cmp (l.getD s2 default) (l.getD o default) ≤ 0)
    (hinv : SiftDownInv cmp l i) :
    SiftDownInv cmp (heapArraySwap l i s2) s2 := by
  have hilen : i < l.length := by omega
  have hswlen : (heapArraySwap l i s2).length = l.length :=
    heapArraySwap_length l i s2
  have hgi : (heapArraySwap l i s2).getD i default = l.getD s2 default :=
    heapArraySwap_getD_fst l i s2 hilen hs2l
  have hgs : (heapArraySwap l i s2).getD s2 default = l.getD i default :=
    heapArraySwap_getD_snd l i s2 hs2l
  constructor
  · intro a j hj hjl han
    rw [hswlen] at hjl
    by_cases hai : a = i
    · rw [hai, hgi]
      by_cases hjs : j = s2
      · rw [hjs, hgs]
        exact hkey
      · have hgj : (heapArraySwap l i s2).getD j default = l.getD j default :=
          heapArraySwap_getD_other l i s2 j (by omega) hjs
        rw [hgj]
        exact hother j (by omega) hjl hjs
    · have hga : (heapArraySwap l i s2).getD a default = l.getD a default :=
        heapArraySwap_getD_other l i s2 a hai han
      rw [hga]
      by_cases hji : j = i
      · have hipos : 0 < i := by omega
        have ha : a = (i - 1) / 2 := by omega
        rw [hji, ha, hgi]
        exact hinv.2 hipos s2 hs2e hs2l
      · by_cases hjs : j = s2
        · exfalso
          omega
        · have hgj : (heapArraySwap l i s2).getD j default = l.getD j default :=
            heapArraySwap_getD_other l i s2 j hji hjs
          rw [hgj]
          exact hinv.1 a j hj hjl hai
  · intro _ j hj hjl
    rw [hswlen] at hjl
    have hparent : (s2 - 1) / 2 = i := by omega
    rw [hparent, hgi]
    have hji : j ≠ i := by omega
    have hjs : j ≠ s2 := by omega
    have hgj : (heapArraySwap l i s2).getD j default = l.getD j default :=
      heapArraySwap_getD_other l i s2 j hji hjs
    rw [hgj]
    exact hinv.1 s2 j hj hjl (by omega)

theorem heapify_down_isMinHeap {α : Type} [Inhabited α] (cmp : α → α → Int)
    (htrans : ∀ a b c, cmp a b ≤ 0 → cmp b c ≤ 0 → cmp a c ≤ 0)
    (hasym : ∀ a b, 0 ≤ cmp a b → cmp b a ≤ 0) :
    ∀ (fuel : Nat) (l : List α) (i : Nat), l.length ≤ fuel + i →
      SiftDownInv cmp l i → IsMinHeap cmp (heapify_down cmp fuel l i) := by
  intro fuel
  induction fuel with
  | zero =>
    intro l i hif hinv
    rw [show heapify_down cmp 0 l i = l from rfl]
    intro a j hj hjl
    exact hinv.1 a j hj hjl (by omega)
  | succ fuel ih =>
    intro l i hif hinv
    rcases heapify_down_succ_cases cmp fuel l i with
      ⟨heq, hn1, hn2⟩ | ⟨h1l, h1c, hno, heq⟩ | ⟨h1l, h1c, h2l, h2c, heq⟩ |
      ⟨hn1, h2l, h2c, heq⟩
    · rw [heq]
      intro a j hj hjl
      by_cases hai : a = i
      · rcases hj with hj | hj
        · subst hj
          rw [hai] at hjl ⊢
          exact hasym (l.getD (2 * i + 1) default) (l.getD i default)
            (by omega)
        · subst hj
          rw [hai] at hjl ⊢
          exact hasym (l.getD (2 * i + 2) default) (l.getD i default)
            (by omega)
      · exact hinv.1 a j hj hjl hai
    · rw [heq]
      refine ih (heapArraySwap l i (2 * i + 1)) (2 * i + 1)
        (by rw [heapArraySwap_length]; omega) ?_
      refine siftDownInv_swap cmp l i (2 * i + 1) (Or.inl rfl) h1l
        (le_of_lt h1c) ?_ hinv
      intro o ho hol hos
      have ho2 : o = 2 * i + 2 := by omega
      subst ho2
      exact hasym (l.getD (2 * i + 2) default) (l.getD (2 * i + 1) default)
        (by omega)
    · rw [heq]
      refine ih (heapArraySwap l i (2 * i + 2)) (2 * i + 2)
        (by rw [heapArraySwap_length]; omega) ?_
      refine siftDownInv_swap cmp l i (2 * i + 2) (Or.inr rfl) h2l
        (htrans _ _ _ (le_of_lt h2c) (le_of_lt h1c)) ?_ hinv
      intro o ho hol hos
      have ho1 : o = 2 * i + 1 := by omega
      subst ho1
      exact le_of_lt h2c
    · rw [heq]
      refine ih (heapArraySwap l i (2 * i + 2)) (2 * i + 2)
        (by rw [heapArraySwap_length]; omega) ?_
      refine siftDownInv_swap cmp l i (2 * i + 2) (Or.inr rfl) h2l
        (le_of_lt h2c) ?_ hinv
      intro o ho hol hos
      have ho1 : o = 2 * i + 1 := by omega
      subst ho1
      have hle : cmp (l.getD i default) (l.getD (2 * i + 1) default) ≤ 0 :=
        hasym (l.getD (2 * i + 1) default) (l.getD i default) (by omega)
      exact htrans _ _ _ (le_of_lt h2c) hle

theorem siftUpInv_append {α : Type} [Inhabited α] (cmp : α → α → Int)
    (l : List α) (x : α) (hheap : IsMinHeap cmp l) :
    SiftUpInv cmp (l ++ [x]) l.length := by
  constructor
  · intro a j hj hjl hjn
    have hjlen : j < l.length := by
      simp only [List.length_append, List.length_cons, List.length_nil] at hjl
      omega
    have halen : a < l.length := by omega
    rw [List.getD_append _ _ _ _ halen, List.getD_append _ _ _ _ hjlen]
    exact hheap a j hj hjlen
  · intro hpos j hj hjl
    exfalso
    simp only [List.length_append, List.length_cons, List.length_nil] at hjl
    omega

/-- Inserting into a well-ordered heap keeps it well ordered. -/
theorem ptr_pq_insert_isMinHeap {α : Type} [Inhabited α] (cmp : α → α → Int)
    (htrans : ∀ a b c, cmp a b ≤ 0 → cmp b c ≤ 0 → cmp a c ≤ 0)
    (hasym : ∀ a b, 0 ≤ cmp a b → cmp b a ≤ 0)
    (l : List α) (x : α) (hheap : IsMinHeap cmp l) :
    IsMinHeap cmp (ptr_pq_insert cmp l x) := by
  unfold ptr_pq_insert
  exact heapify_up_isMinHeap cmp htrans hasym l.length (l ++ [x]) l.length
    le_rfl (Or.inl (by simp)) (siftUpInv_append cmp l x hheap)

theorem getD_take_lt {α : Type} (l : List α) (n k : Nat) (d : α) (hk : k < n) :
    (l.take n).getD k d = l.getD k d := by
  by_cases hkl : k < l.length
  · have h2 : k < (l.take n).length := by
      simp only [List.length_take]
      omega
    rw [getD_eq_getElem _ _ _ h2, getD_eq_getElem _ _ _ hkl]
    exact List.getElem_take _
  · rw [List.getD_eq_default _ _ (by
      simp only [List.length_take]; omega),
      List.getD_eq_default _ _ (by omega)]

theorem siftDownInv_extract {α : Type} [Inhabited α] (cmp : α → α → Int)
    (l : List α) (hheap : IsMinHeap cmp l) (hlen : 2 ≤ l.length) :
    SiftDownInv cmp
      ((l.set 0 (l.getD (l.length - 1) default)).take (l.length - 1)) 0 := by
  constructor
  · intro a j hj hjl hai
    have hjn : j < l.length - 1 := by
      rw [List.length_take, List.length_set] at hjl
      omega
    have han : a < l.length - 1 := by omega
    have hget : ∀ k, k ≠ 0 → k < l.length - 1 →
        ((l.set 0 (l.getD (l.length - 1) default)).take (l.length - 1)).getD
          k default = l.getD k default := by
      intro k hk0 hkn
      rw [getD_take_lt _ _ _ _ hkn, getD_set_ne _ _ _ _ _ (Ne.symm hk0)]
    rw [hget a hai han, hget j (by omega) hjn]
    exact hheap a j hj (by omega)
  · intro hpos
    omega

/-- Extracting from a well-ordered heap leaves the remainder well ordered. -/
theorem ptr_pq_extract_min_isMinHeap {α : Type} [Inhabited α]
    (cmp : α → α → Int)
    (htrans : ∀ a b c, cmp a b ≤ 0 → cmp b c ≤ 0 → cmp a c ≤ 0)
    (hasym : ∀ a b, 0 ≤ cmp a b → cmp b a ≤ 0)
    (l : List α) (hheap : IsMinHeap cmp l) :
    IsMinHeap cmp (ptr_pq_extract_min cmp l).2 := by
  unfold ptr_pq_extract_min
  by_cases h0 : l.length = 0
  · rw [if_pos h0]
    exact hheap
  · rw [if_neg h0]
    by_cases h1 : 0 < l.length - 1
    · rw [if_pos h1]
      simp only []
      refine heapify_down_isMinHeap cmp htrans hasym (l.length - 1) _ 0 (by
        rw [List.length_take, List.length_set]; omega) ?_
      exact siftDownInv_extract cmp l hheap (by omega)
    · rw [if_neg h1]
      intro a j hj hjl
      rw [List.length_take] at hjl
      omega

/-- In a well-ordered heap the root is `cmp`-at-most every element. -/
theorem isMinHeap_root_le {α : Type} [Inhabited α] (cmp : α → α → Int)
    (htrans : ∀ a b c, cmp a b ≤ 0 → cmp b c ≤ 0 → cmp a c ≤ 0)
    (hasym : ∀ a b, 0 ≤ cmp a b → cmp b a ≤ 0)
    (l : List α) (hheap : IsMinHeap cmp l) :
    ∀ k, k < l.length → cmp (l.getD 0 default) (l.getD k default) ≤ 0 := by
  intro k
  induction k using Nat.strong_induction_on with
  | _ k ih =>
    intro hk
    rcases Nat.eq_zero_or_pos k with h0 | hpos
    · subst h0
      exact cmp_refl_le cmp hasym (l.getD 0 default)
    · have hpar : (k - 1) / 2 < k := by omega
      have hedge : k = 2 * ((k - 1) / 2) + 1 ∨ k = 2 * ((k - 1) / 2) + 2 := by
        omega
      exact htrans _ _ _ (ih ((k - 1) / 2) hpar (by omega))
        (hheap ((k - 1) / 2) k hedge hk)

theorem pqReachable_isMinHeap {α : Type} [Inhabited α] (cmp : α → α → Int)
    (htrans : ∀ a b c, cmp a b ≤ 0 → cmp b c ≤ 0 → cmp a c ≤ 0)
    (hasym : ∀ a b, 0 ≤ cmp a b → cmp b a ≤ 0)
    (l : List α) (h : PQReachable cmp l) : IsMinHeap cmp l := by
  induction h with
  | empty => intro a j hj hjl; simp at hjl
  | insert l x h ih => exact ptr_pq_insert_isMinHeap cmp htrans hasym l x ih
  | extract l h ih => exact ptr_pq_extract_min_isMinHeap cmp htrans hasym l ih

/-- C9: extract-min correctness: on every priority-queue state reachable by
any sequence of inserts and extractions (with a comparator implementing a
total preorder, as the header documents: negative / zero / positive
three-way comparison), extract-min removes and returns an element minimal
under the comparator among all elements currently in the queue and decreases
the size by one - the remainder is a permutation of the other elements - and
on the empty queue it returns the empty indicator. -/
theorem C9_extract_min_correct {α : Type} [Inhabited α] (cmp : α → α → Int)
    (htrans : ∀ a b c, cmp a b ≤ 0 → cmp b c ≤ 0 → cmp a c ≤ 0)
    (hasym : ∀ a b, 0 ≤ cmp a b → cmp b a ≤ 0)
    (l : List α) (hreach : PQReachable cmp l) :
    (l = [] → ptr_pq_extract_min cmp l = (none, [])) ∧
    (∀ m rest, l = m :: rest →
      (ptr_pq_extract_min cmp l).1 = some m ∧ m ∈ l ∧
      (∀ x ∈ l, cmp m x ≤ 0) ∧
      (ptr_pq_extract_min cmp l).2.length = l.length - 1 ∧
      List.Perm (ptr_pq_extract_min cmp l).2 rest) := by
  constructor
  · intro h
    subst h
    rfl
  · intro m rest hl
    subst hl
    have hheap := pqReachable_isMinHeap cmp htrans hasym _ hreach
    obtain ⟨h1, h2⟩ := ptr_pq_extract_min_cons cmp m rest
    refine ⟨h1, List.mem_cons_self m rest, ?_, ?_, h2⟩
    · intro x hx
      obtain ⟨k, hk, hkx⟩ := List.mem_iff_getElem.mp hx
      have hroot := isMinHeap_root_le cmp htrans hasym (m :: rest) hheap k hk
      rw [getD_eq_getElem _ _ _ hk, hkx] at hroot
      exact hroot
    · rw [h2.length_eq]
      simp

/-- C9 witness: with the integer-difference comparator, extracting from the
reachable state obtained by inserting 2 then 1 returns 1 and leaves a
permutation of `[2]`. -/
theorem C9_extract_min_correct_witness :
    (ptr_pq_extract_min (fun a b : Int => a - b) [1, 2]).1 = some 1 ∧
      List.Perm (ptr_pq_extract_min (fun a b : Int => a - b) [1, 2]).2 [2] := by
  have h := C9_extract_min_correct (fun a b : Int => a - b)
    (by intro a b c h1 h2; simp only [] at h1 h2 ⊢; omega)
    (by intro a b h1; simp only [] at h1 ⊢; omega)
    [1, 2] (by
      have h2 : PQReachable (fun a b : Int => a - b)
          (ptr_pq_insert (fun a b : Int => a - b)
            (ptr_pq_insert (fun a b : Int => a - b) [] 2) 1) :=
        PQReachable.insert _ 1 (PQReachable.insert _ 2 PQReachable.empty)
      rw [show ptr_pq_insert (fun a b : Int => a - b)
          (ptr_pq_insert (fun a b : Int => a - b) [] 2) 1 = [1, 2] by decide]
        at h2
      exact h2)
  obtain ⟨-, h2⟩ := h
  obtain ⟨ha, -, -, -, he⟩ := h2 1 [2] rfl
  exact ⟨ha, he⟩

/-! ## Infrastructure for C8/C10: the leaves of the built tree are exactly
the nonzero entries of the frequency table -/

theorem queueLeaves_perm {h h2 : List HuffmanNode} (hp : List.Perm h h2) :
    queueLeaves h = queueLeaves h2 := by
  unfold queueLeaves
  rw [Multiset.coe_eq_coe.mpr hp]

theorem queueLeaves_cons (x : HuffmanNode) (h : List HuffmanNode) :
    queueLeaves (x :: h) =
      (leavesList x : Multiset (Nat × Nat)) + queueLeaves h := by
  unfold queueLeaves
  rw [show ((x :: h : List HuffmanNode) : Multiset HuffmanNode) =
    x ::ₘ (h : Multiset HuffmanNode) from rfl]
  rw [Multiset.map_cons, Multiset.sum_cons]

theorem ptr_pq_insert_length {α : Type} [Inhabited α] (cmp : α → α → Int)
    (l : List α) (x : α) : (ptr_pq_insert cmp l x).length = l.length + 1 := by
  have h := (ptr_pq_insert_perm cmp l x).length_eq
  simpa using h

theorem queueLeaves_insert (l : List HuffmanNode) (x : HuffmanNode) :
    queueLeaves (ptr_pq_insert huffman_node_compare l x) =
      (leavesList x : Multiset (Nat × Nat)) + queueLeaves l := by
  rw [queueLeaves_perm (ptr_pq_insert_perm huffman_node_compare l x),
    queueLeaves_cons]

theorem leavesList_parent (b f : Nat) (m1 m2 : HuffmanNode)
    (h1 : m1 ≠ HuffmanNode.null) :
    leavesList (HuffmanNode.mk b f m1 m2) = leavesList m1 ++ leavesList m2 := by
  rw [show leavesList (HuffmanNode.mk b f m1 m2) =
    if m1 = HuffmanNode.null ∧ m2 = HuffmanNode.null then [(b, f)]
    else leavesList m1 ++ leavesList m2 from rfl]
  rw [if_neg (by tauto)]

/-- One full pass of the merge loop: the members stay non-NULL and full, the
multiset of leaf pairs over the queue is preserved, and the loop ends with
`min (initial length) 1` elements. -/
theorem huffman_tree_merge_loop_spec :
    ∀ (fuel : Nat) (pq : List HuffmanNode), pq.length ≤ fuel + 1 →
      (∀ n ∈ pq, n ≠ HuffmanNode.null ∧ isFullNode n = true) →
      (∀ n ∈ huffman_tree_merge_loop fuel pq,
          n ≠ HuffmanNode.null ∧ isFullNode n = true) ∧
        queueLeaves (huffman_tree_merge_loop fuel pq) = queueLeaves pq ∧
        (huffman_tree_merge_loop fuel pq).length = min pq.length 1 := by
  intro fuel
  induction fuel with
  | zero =>
    intro pq hlen hgood
    rw [show huffman_tree_merge_loop 0 pq = pq from rfl]
    exact ⟨hgood, rfl, by omega⟩
  | succ fuel ih =>
    intro pq hlen hgood
    rw [huffman_tree_merge_loop]
    by_cases hbig : 1 < pq.length
    · rw [if_pos hbig]
      obtain ⟨m1, rest, rfl⟩ : ∃ a l, pq = a :: l := by
        cases pq with
        | nil => simp at hbig
        | cons a l => exact ⟨a, l, rfl⟩
      obtain ⟨he1, hp1⟩ := ptr_pq_extract_min_cons huffman_node_compare m1 rest
      have hrlen : (ptr_pq_extract_min huffman_node_compare
          (m1 :: rest)).2.length = rest.length := hp1.length_eq
      obtain ⟨m2, rest2, he2⟩ :=
        List.exists_cons_of_ne_nil (l := (ptr_pq_extract_min
          huffman_node_compare (m1 :: rest)).2) (by
            intro hnil
            rw [hnil] at hrlen
            simp only [List.length_cons] at hbig
            simp at hrlen
            omega)
      rw [he2] at hp1 hrlen
      obtain ⟨he2a, hp2⟩ := ptr_pq_extract_min_cons huffman_node_compare m2 rest2
      dsimp only
      rw [he1, he2, he2a]
      dsimp only
      have hm1good : m1 ≠ HuffmanNode.null ∧ isFullNode m1 = true :=
        hgood m1 (List.mem_cons_self m1 rest)
      have hm2mem : m2 ∈ rest := hp1.mem_iff.mp (List.mem_cons_self m2 rest2)
      have hm2good : m2 ≠ HuffmanNode.null ∧ isFullNode m2 = true :=
        hgood m2 (List.mem_cons_of_mem m1 hm2mem)
      have hparentfull : isFullNode
          (HuffmanNode.mk 0 (m1.frequency + m2.frequency) m1 m2) = true := by
        rcases m1 with _ | ⟨b1, f1, l1, r1⟩
        · exact absurd rfl hm1good.1
        · rcases m2 with _ | ⟨b2, f2, l2, r2⟩
          · exact absurd rfl hm2good.1
          · rw [isFullNode, hm1good.2, hm2good.2]
            rfl
      have hgood2 : ∀ n ∈ ptr_pq_insert huffman_node_compare
          (ptr_pq_extract_min huffman_node_compare (m2 :: rest2)).2
          (HuffmanNode.mk 0 (m1.frequency + m2.frequency) m1 m2),
          n ≠ HuffmanNode.null ∧ isFullNode n = true := by
        intro n hn
        have hn2 := (ptr_pq_insert_perm huffman_node_compare _ _).mem_iff.mp hn
        rcases List.mem_cons.mp hn2 with hn3 | hn3
        · subst hn3
          exact ⟨by simp, hparentfull⟩
        · have hn4 := hp2.mem_iff.mp hn3
          have hn6 := hp1.mem_iff.mp (List.mem_cons_of_mem m2 hn4)
          exact hgood n (List.mem_cons_of_mem m1 hn6)
      have hlen2 : (ptr_pq_insert huffman_node_compare
          (ptr_pq_extract_min huffman_node_compare (m2 :: rest2)).2
          (HuffmanNode.mk 0 (m1.frequency + m2.frequency) m1 m2)).length =
          rest.length := by
        rw [ptr_pq_insert_length, hp2.length_eq]
        simp only [List.length_cons] at hrlen
        omega
      obtain ⟨ga, gb, gc⟩ := ih _ (by
        rw [hlen2]
        simp only [List.length_cons] at hlen
        omega) hgood2
      refine ⟨ga, ?_, ?_⟩
      · rw [gb, queueLeaves_insert,
          leavesList_parent 0 (m1.frequency + m2.frequency) m1 m2 hm1good.1,
          queueLeaves_perm hp2]
        have hq1 : queueLeaves (m1 :: rest) =
            (leavesList m1 : Multiset (Nat × Nat)) + queueLeaves rest :=
          queueLeaves_cons m1 rest
        have hq2 : queueLeaves rest = queueLeaves (m2 :: rest2) :=
          (queueLeaves_perm hp1).symm
        have hq3 : queueLeaves (m2 :: rest2) =
            (leavesList m2 : Multiset (Nat × Nat)) + queueLeaves rest2 :=
          queueLeaves_cons m2 rest2
        rw [hq1, hq2, hq3]
        rw [show ((leavesList m1 ++ leavesList m2 : List (Nat × Nat)) :
            Multiset (Nat × Nat)) =
          (leavesList m1 : Multiset (Nat × Nat)) +
            (leavesList m2 : Multiset (Nat × Nat)) from rfl]
        abel
      · rw [gc, hlen2]
        simp only [List.length_cons] at hbig ⊢
        omega
    · rw [if_neg hbig]
      exact ⟨hgood, rfl, by omega⟩

/-- The leaf-insertion loop of the builder: starting from any queue, it adds
one singleton leaf per processed byte value with positive frequency. -/
theorem build_queue_foldl_spec (t : List Nat) :
    ∀ (js : List Nat) (pq : List HuffmanNode),
      (∀ n ∈ pq, n ≠ HuffmanNode.null ∧ isFullNode n = true) →
      (∀ n ∈ js.foldl (fun pq i =>
          if 0 < t.getD i 0 then
            ptr_pq_insert huffman_node_compare pq
              (huffman_node_create i (t.getD i 0))
          else pq) pq,
          n ≠ HuffmanNode.null ∧ isFullNode n = true) ∧
      queueLeaves (js.foldl (fun pq i =>
          if 0 < t.getD i 0 then
            ptr_pq_insert huffman_node_compare pq
              (huffman_node_create i (t.getD i 0))
          else pq) pq) =
        queueLeaves pq +
          (((js.filter (fun i => 0 < t.getD i 0)).map
            (fun i => (i, t.getD i 0)) : List (Nat × Nat)) :
              Multiset (Nat × Nat)) ∧
      (js.foldl (fun pq i =>
          if 0 < t.getD i 0 then
            ptr_pq_insert huffman_node_compare pq
              (huffman_node_create i (t.getD i 0))
          else pq) pq).length =
        pq.length + (js.filter (fun i => 0 < t.getD i 0)).length := by
  intro js
  induction js with
  | nil =>
    intro pq hgood
    refine ⟨hgood, by simp [queueLeaves], by simp⟩
  | cons j js ih =>
    intro pq hgood
    by_cases hj : 0 < t.getD j 0
    · have hstep : ∀ n ∈ ptr_pq_insert huffman_node_compare pq
          (huffman_node_create j (t.getD j 0)),
          n ≠ HuffmanNode.null ∧ isFullNode n = true := by
        intro n hn
        have hn2 := (ptr_pq_insert_perm huffman_node_compare _ _).mem_iff.mp hn
        rcases List.mem_cons.mp hn2 with hn3 | hn3
        · subst hn3
          exact ⟨by simp [huffman_node_create], by rfl⟩
        · exact hgood n hn3
      obtain ⟨ga, gb, gc⟩ := ih _ hstep
      simp only [List.foldl_cons, if_pos hj] at *
      refine ⟨ga, ?_, ?_⟩
      · rw [gb, queueLeaves_insert]
        rw [List.filter_cons_of_pos (by simpa using hj), List.map_cons]
        rw [show (((j, t.getD j 0) :: (js.filter (fun i => 0 < t.getD i 0)).map
            (fun i => (i, t.getD i 0)) : List (Nat × Nat)) :
              Multiset (Nat × Nat)) =
          ((j, t.getD j 0) : Nat × Nat) ::ₘ
            (((js.filter (fun i => 0 < t.getD i 0)).map
              (fun i => (i, t.getD i 0)) : List (Nat × Nat)) :
                Multiset (Nat × Nat)) from rfl]
        rw [show (leavesList (huffman_node_create j (t.getD j 0)) :
            Multiset (Nat × Nat)) =
          {((j, t.getD j 0) : Nat × Nat)} from rfl]
        rw [← Multiset.singleton_add]
        abel
      · rw [gc, ptr_pq_insert_length,
          List.filter_cons_of_pos (by simpa using hj)]
        simp only [List.length_cons]
        omega
    · simp only [List.foldl_cons, if_neg hj]
      obtain ⟨ga, gb, gc⟩ := ih _ hgood
      refine ⟨ga, ?_, ?_⟩
      · rw [gb, List.filter_cons_of_neg (by simpa using hj)]
      · rw [gc, List.filter_cons_of_neg (by simpa using hj)]

/-- The root built by `huffman_tree_create` from a table with at least one
nonzero entry: non-NULL, full, and its leaves are exactly the nonzero
(byte, frequency) entries of the table. -/
theorem huffman_tree_create_root_spec (t : List Nat)
    (h1 : 1 ≤ ((List.range POSSIBLE_BYTES).filter
      (fun i => 0 < t.getD i 0)).length) :
    (huffman_tree_create t).root ≠ HuffmanNode.null ∧
      isFullNode (huffman_tree_create t).root = true ∧
      (leavesList (huffman_tree_create t).root : Multiset (Nat × Nat)) =
        (nonzeroPairs t : Multiset (Nat × Nat)) := by
  obtain ⟨ba, bb, bc⟩ := build_queue_foldl_spec t (List.range POSSIBLE_BYTES)
    [] (by intro n hn; simp at hn)
  have hbq_good : ∀ n ∈ huffman_tree_build_queue t,
      n ≠ HuffmanNode.null ∧ isFullNode n = true := ba
  have hbq_leaves : queueLeaves (huffman_tree_build_queue t) =
      (nonzeroPairs t : Multiset (Nat × Nat)) := by
    rw [show huffman_tree_build_queue t = (List.range POSSIBLE_BYTES).foldl
      (fun pq i =>
        if 0 < t.getD i 0 then
          ptr_pq_insert huffman_node_compare pq
            (huffman_node_create i (t.getD i 0))
        else pq) [] from rfl, bb]
    rw [show queueLeaves [] = 0 from rfl]
    rw [zero_add]
    rfl
  have hbq_len : (huffman_tree_build_queue t).length =
      ((List.range POSSIBLE_BYTES).filter (fun i => 0 < t.getD i 0)).length := by
    rw [show huffman_tree_build_queue t = (List.range POSSIBLE_BYTES).foldl
      (fun pq i =>
        if 0 < t.getD i 0 then
          ptr_pq_insert huffman_node_compare pq
            (huffman_node_create i (t.getD i 0))
        else pq) [] from rfl, bc]
    simp
  obtain ⟨ma, mb, mc⟩ := huffman_tree_merge_loop_spec
    (huffman_tree_build_queue t).length (huffman_tree_build_queue t)
    (by omega) hbq_good
  have hfinal_len : (huffman_tree_merge_loop (huffman_tree_build_queue t).length
      (huffman_tree_build_queue t)).length = 1 := by
    rw [mc]
    omega
  obtain ⟨r, hr⟩ := List.length_eq_one.mp hfinal_len
  have hroot : (huffman_tree_create t).root = r := by
    rw [show (huffman_tree_create t).root =
      (match (ptr_pq_extract_min huffman_node_compare
          (huffman_tree_merge_loop (huffman_tree_build_queue t).length
            (huffman_tree_build_queue t))).1 with
        | some r => r
        | none => HuffmanNode.null) from rfl]
    rw [hr]
    rfl
  rw [hroot]
  have hrmem : r ∈ huffman_tree_merge_loop (huffman_tree_build_queue t).length
      (huffman_tree_build_queue t) := by
    rw [hr]
    exact List.mem_singleton_self r
  have hrgood := ma r hrmem
  refine ⟨hrgood.1, hrgood.2, ?_⟩
  have hql : queueLeaves [r] = (leavesList r : Multiset (Nat × Nat)) := by
    rw [queueLeaves_cons]
    rw [show queueLeaves [] = 0 from rfl]
    rw [add_zero]
  rw [← hql, ← hr, mb, hbq_leaves]

/-- In a full tree, the number of internal nodes is the number of leaves
minus one. -/
theorem isFullNode_internal_eq (n : HuffmanNode) :
    n ≠ HuffmanNode.null → isFullNode n = true →
      1 ≤ leafCount n ∧ internalCount n = leafCount n - 1 := by
  induction n with
  | null => intro h; exact absurd rfl h
  | mk b f l r ihl ihr =>
    intro _ hf
    by_cases hleaf : l = HuffmanNode.null ∧ r = HuffmanNode.null
    · rw [show leafCount (HuffmanNode.mk b f l r) =
        if l = HuffmanNode.null ∧ r = HuffmanNode.null then 1
        else leafCount l + leafCount r from rfl]
      rw [show internalCount (HuffmanNode.mk b f l r) =
        if l = HuffmanNode.null ∧ r = HuffmanNode.null then 0
        else internalCount l + internalCount r + 1 from rfl]
      rw [if_pos hleaf, if_pos hleaf]
      omega
    · rcases l with _ | ⟨b1, f1, l1, r1⟩
      · rcases r with _ | ⟨b2, f2, l2, r2⟩
        · exact absurd ⟨rfl, rfl⟩ hleaf
        · rw [isFullNode] at hf
          exact absurd hf (by simp)
      · rcases r with _ | ⟨b2, f2, l2, r2⟩
        · rw [isFullNode] at hf
          exact absurd hf (by simp)
        · rw [isFullNode, Bool.and_eq_true] at hf
          obtain ⟨g1a, g1b⟩ := ihl (by simp) hf.1
          obtain ⟨g2a, g2b⟩ := ihr (by simp) hf.2
          rw [show leafCount (HuffmanNode.mk b f (HuffmanNode.mk b1 f1 l1 r1)
              (HuffmanNode.mk b2 f2 l2 r2)) =
            leafCount (HuffmanNode.mk b1 f1 l1 r1) +
              leafCount (HuffmanNode.mk b2 f2 l2 r2) by
            rw [show leafCount (HuffmanNode.mk b f (HuffmanNode.mk b1 f1 l1 r1)
                (HuffmanNode.mk b2 f2 l2 r2)) =
              if HuffmanNode.mk b1 f1 l1 r1 = HuffmanNode.null ∧
                  HuffmanNode.mk b2 f2 l2 r2 = HuffmanNode.null then 1
              else leafCount (HuffmanNode.mk b1 f1 l1 r1) +
                leafCount (HuffmanNode.mk b2 f2 l2 r2) from rfl]
            rw [if_neg (by simp)]]
          rw [show internalCount (HuffmanNode.mk b f
              (HuffmanNode.mk b1 f1 l1 r1) (HuffmanNode.mk b2 f2 l2 r2)) =
            internalCount (HuffmanNode.mk b1 f1 l1 r1) +
              internalCount (HuffmanNode.mk b2 f2 l2 r2) + 1 by
            rw [show internalCount (HuffmanNode.mk b f
                (HuffmanNode.mk b1 f1 l1 r1) (HuffmanNode.mk b2 f2 l2 r2)) =
              if HuffmanNode.mk b1 f1 l1 r1 = HuffmanNode.null ∧
                  HuffmanNode.mk b2 f2 l2 r2 = HuffmanNode.null then 0
              else internalCount (HuffmanNode.mk b1 f1 l1 r1) +
                internalCount (HuffmanNode.mk b2 f2 l2 r2) + 1 from rfl]
            rw [if_neg (by simp)]]
          omega

theorem leafCount_eq_leaves_length (n : HuffmanNode) :
    leafCount n = (leavesList n).length := by
  induction n with
  | null => rfl
  | mk b f l r ihl ihr =>
    by_cases hleaf : l = HuffmanNode.null ∧ r = HuffmanNode.null
    · rw [show leafCount (HuffmanNode.mk b f l r) =
        if l = HuffmanNode.null ∧ r = HuffmanNode.null then 1
        else leafCount l + leafCount r from rfl]
      rw [show leavesList (HuffmanNode.mk b f l r) =
        if l = HuffmanNode.null ∧ r = HuffmanNode.null then [(b, f)]
        else leavesList l ++ leavesList r from rfl]
      rw [if_pos hleaf, if_pos hleaf]
      rfl
    · rw [show leafCount (HuffmanNode.mk b f l r) =
        if l = HuffmanNode.null ∧ r = HuffmanNode.null then 1
        else leafCount l + leafCount r from rfl]
      rw [show leavesList (HuffmanNode.mk b f l r) =
        if l = HuffmanNode.null ∧ r = HuffmanNode.null then [(b, f)]
        else leavesList l ++ leavesList r from rfl]
      rw [if_neg hleaf, if_neg hleaf, List.length_append, ihl, ihr]

/-- A leaf reached by a path is one of the tree's leaves. -/
theorem nodeAt_leaf_mem_leaves (q : List Nat) :
    ∀ (n : HuffmanNode) (b f : Nat),
      nodeAt n q = HuffmanNode.mk b f .null .null →
        (b, f) ∈ leavesList n := by
  induction q with
  | nil =>
    intro n b f h
    rw [show nodeAt n [] = n from rfl] at h
    subst h
    rw [show leavesList (HuffmanNode.mk b f .null .null) = [(b, f)] from rfl]
    exact List.mem_singleton_self (b, f)
  | cons x rest ih =>
    intro n b f h
    rcases n with _ | ⟨b0, f0, l, r⟩
    · rw [nodeAt_null] at h
      exact absurd h (by simp)
    · rw [show nodeAt (HuffmanNode.mk b0 f0 l r) (x :: rest) =
        nodeAt (if x = 0 then l else r) rest from rfl] at h
      by_cases hleaf : l = HuffmanNode.null ∧ r = HuffmanNode.null
      · exfalso
        rw [hleaf.1, hleaf.2, ite_self, nodeAt_null] at h
        exact absurd h (by simp)
      · rw [show leavesList (HuffmanNode.mk b0 f0 l r) =
          if l = HuffmanNode.null ∧ r = HuffmanNode.null then [(b0, f0)]
          else leavesList l ++ leavesList r from rfl]
        rw [if_neg hleaf]
        by_cases hx : x = 0
        · rw [if_pos hx] at h
          exact List.mem_append_left _ (ih l b f h)
        · rw [if_neg hx] at h
          exact List.mem_append_right _ (ih r b f h)

/-- C8: tree shape and code length bound: for every frequency table with
K >= 2 distinct nonzero-frequency byte values, the built tree has a non-NULL
root with exactly K leaves and K-1 internal nodes, and every generated code
has length at least 1. -/
theorem C8_tree_shape_and_code_lengths (t : List Nat)
    (hK : 2 ≤ ((List.range POSSIBLE_BYTES).filter
      (fun i => 0 < t.getD i 0)).length) :
    (huffman_tree_create t).root ≠ HuffmanNode.null ∧
      leafCount (huffman_tree_create t).root =
        ((List.range POSSIBLE_BYTES).filter
          (fun i => 0 < t.getD i 0)).length ∧
      internalCount (huffman_tree_create t).root =
        ((List.range POSSIBLE_BYTES).filter
          (fun i => 0 < t.getD i 0)).length - 1 ∧
      ∀ b c, huffman_tree_get_code (huffman_tree_create t) b = some c →
        1 ≤ huffman_tree_get_code_length (huffman_tree_create t) b := by
  obtain ⟨hr1, hr2, hr3⟩ := huffman_tree_create_root_spec t (by omega)
  have hleaf_eq : leafCount (huffman_tree_create t).root =
      ((List.range POSSIBLE_BYTES).filter (fun i => 0 < t.getD i 0)).length := by
    rw [leafCount_eq_leaves_length]
    have hcard := congrArg Multiset.card hr3
    rw [Multiset.coe_card, Multiset.coe_card] at hcard
    rw [hcard]
    unfold nonzeroPairs
    rw [List.length_map]
  obtain ⟨hc1, hc2⟩ := isFullNode_internal_eq _ hr1 hr2
  refine ⟨hr1, hleaf_eq, by omega, ?_⟩
  intro b c hbc
  obtain ⟨p, fx, hpath, _, _, hlen⟩ := get_code_eq_leaf_path t b c hbc
  rw [hlen]
  rcases p with _ | ⟨x, rest⟩
  · exfalso
    rw [show nodeAt (huffman_tree_create t).root [] =
      (huffman_tree_create t).root from rfl] at hpath
    have hone : leafCount (huffman_tree_create t).root = 1 := by
      rw [hpath]
      rfl
    omega
  · simp

/-- C8 witness: the table `0x41 -> 2, 0x42 -> 1` has K = 2 nonzero entries;
the built tree has 2 leaves and 1 internal node, and the code generated for
`0x41` has length at least 1. -/
theorem C8_tree_shape_and_code_lengths_witness :
    leafCount (huffman_tree_create
        (((List.replicate 256 0).set 65 2).set 66 1)).root = 2 ∧
      internalCount (huffman_tree_create
        (((List.replicate 256 0).set 65 2).set 66 1)).root = 1 ∧
      1 ≤ huffman_tree_get_code_length
        (huffman_tree_create (((List.replicate 256 0).set 65 2).set 66 1)) 65 := by
  have h := C8_tree_shape_and_code_lengths
    (((List.replicate 256 0).set 65 2).set 66 1) (by decide)
  refine ⟨?_, ?_, h.2.2.2 65 [128, 0] (by decide)⟩
  · rw [h.2.1]
    decide
  · rw [h.2.2.1]
    decide

/-- C10: absent bytes have no code: if byte value `b` has zero frequency in a
table with at least one nonzero entry, the built tree stores no code for `b`
(the get-code operation returns NULL) and its recorded code length is 0. -/
theorem C10_zero_frequency_no_code (t : List Nat) (b : Nat)
    (hb : t.getD b 0 = 0) (i0 : Nat) (hi0 : i0 < POSSIBLE_BYTES)
    (hpos : 0 < t.getD i0 0) :
    huffman_tree_get_code (huffman_tree_create t) b = none ∧
      huffman_tree_get_code_length (huffman_tree_create t) b = 0 := by
  have hcodes : (huffman_tree_create t).codes =
      (generate_codes_rec (huffman_tree_create t).root []
        (List.replicate POSSIBLE_BYTES none,
          List.replicate POSSIBLE_BYTES 0)).1 := rfl
  have hlens : (huffman_tree_create t).code_lengths =
      (generate_codes_rec (huffman_tree_create t).root []
        (List.replicate POSSIBLE_BYTES none,
          List.replicate POSSIBLE_BYTES 0)).2 := rfl
  rcases generate_codes_rec_spec (huffman_tree_create t).root []
      (List.replicate POSSIBLE_BYTES none, List.replicate POSSIBLE_BYTES 0) b
    with ⟨h1, h2⟩ | ⟨q, fq, hpath, _, _, _⟩
  · constructor
    · rw [huffman_tree_get_code, hcodes, h1]
      by_cases hblt : b < POSSIBLE_BYTES
      · rw [List.getD_eq_getElem?_getD, List.getElem?_replicate]
        simp [hblt]
      · rw [List.getD_eq_default _ _ (by simpa using not_lt.mp hblt)]
    · rw [huffman_tree_get_code_length, hlens, h2]
      by_cases hblt : b < POSSIBLE_BYTES
      · rw [List.getD_eq_getElem?_getD, List.getElem?_replicate]
        simp [hblt]
      · rw [List.getD_eq_default _ _ (by simpa using not_lt.mp hblt)]
  · exfalso
    have hmem := nodeAt_leaf_mem_leaves q _ b fq hpath
    have hone : 1 ≤ ((List.range POSSIBLE_BYTES).filter
        (fun i => 0 < t.getD i 0)).length := by
      have hmemf : i0 ∈ (List.range POSSIBLE_BYTES).filter
          (fun i => 0 < t.getD i 0) :=
        List.mem_filter.mpr ⟨List.mem_range.mpr hi0, by simpa using hpos⟩
      have := List.length_pos.mpr (List.ne_nil_of_mem hmemf)
      omega
    obtain ⟨_, _, hr3⟩ := huffman_tree_create_root_spec t hone
    have hmem2 : ((b, fq) : Nat × Nat) ∈ nonzeroPairs t := by
      have hm : ((b, fq) : Nat × Nat) ∈
          (leavesList (huffman_tree_create t).root : Multiset (Nat × Nat)) := by
        simpa using hmem
      rw [hr3] at hm
      simpa using hm
    unfold nonzeroPairs at hmem2
    obtain ⟨i, hi, hpair⟩ := List.mem_map.mp hmem2
    have hib : i = b := congrArg Prod.fst hpair
    have hval := List.mem_filter.mp hi
    rw [hib] at hval
    have : 0 < t.getD b 0 := by simpa using hval.2
    omega

/-- C10 witness: in the table `0x41 -> 2, 0x42 -> 1`, byte `0x43` has zero
frequency, so the built tree has no code for it and code length 0. -/
theorem C10_zero_frequency_no_code_witness :
    huffman_tree_get_code
        (huffman_tree_create (((List.replicate 256 0).set 65 2).set 66 1)) 67 =
      none ∧
      huffman_tree_get_code_length
        (huffman_tree_create (((List.replicate 256 0).set 65 2).set 66 1)) 67 =
      0 :=
  C10_zero_frequency_no_code (((List.replicate 256 0).set 65 2).set 66 1) 67
    (by decide) 65 (by decide) (by decide)

/-! ## Infrastructure for C6: recovering the table from the built tree -/

theorem get_frequencies_rec_eq (n : HuffmanNode) (freqs : List Nat) :
    get_frequencies_rec n freqs =
      (leavesList n).foldl (fun acc p => acc.set p.1 p.2) freqs := by
  induction n generalizing freqs with
  | null => rfl
  | mk b f l r ihl ihr =>
    by_cases hleaf : l = HuffmanNode.null ∧ r = HuffmanNode.null
    · rw [show get_frequencies_rec (HuffmanNode.mk b f l r) freqs =
        if l = HuffmanNode.null ∧ r = HuffmanNode.null then freqs.set b f
        else get_frequencies_rec r (get_frequencies_rec l freqs) from rfl]
      rw [show leavesList (HuffmanNode.mk b f l r) =
        if l = HuffmanNode.null ∧ r = HuffmanNode.null then [(b, f)]
        else leavesList l ++ leavesList r from rfl]
      rw [if_pos hleaf, if_pos hleaf]
      rfl
    · rw [show get_frequencies_rec (HuffmanNode.mk b f l r) freqs =
        if l = HuffmanNode.null ∧ r = HuffmanNode.null then freqs.set b f
        else get_frequencies_rec r (get_frequencies_rec l freqs) from rfl]
      rw [show leavesList (HuffmanNode.mk b f l r) =
        if l = HuffmanNode.null ∧ r = HuffmanNode.null then [(b, f)]
        else leavesList l ++ leavesList r from rfl]
      rw [if_neg hleaf, if_neg hleaf, List.foldl_append, ihl, ihr]

theorem foldl_set_getD (t : List Nat) :
    ∀ (ps : List (Nat × Nat)) (freqs : List Nat) (j : Nat),
      (∀ p ∈ ps, p.2 = t.getD p.1 0) →
      (ps.foldl (fun acc p => acc.set p.1 p.2) freqs).getD j 0 =
        if (∃ p ∈ ps, p.1 = j) ∧ j < freqs.length then t.getD j 0
        else freqs.getD j 0 := by
  intro ps
  induction ps with
  | nil =>
    intro freqs j _
    rw [if_neg (by simp)]
    rfl
  | cons p ps ih =>
    intro freqs j hps
    rw [List.foldl_cons]
    rw [ih (freqs.set p.1 p.2) j (fun q hq => hps q (List.mem_cons_of_mem p hq))]
    have hplen : (freqs.set p.1 p.2).length = freqs.length := by simp
    by_cases hex : (∃ q ∈ ps, q.1 = j) ∧ j < freqs.length
    · rw [if_pos (by rw [hplen]; exact hex), if_pos (by
        refine ⟨?_, hex.2⟩
        obtain ⟨q, hq1, hq2⟩ := hex.1
        exact ⟨q, List.mem_cons_of_mem p hq1, hq2⟩)]
    · rw [if_neg (by rw [hplen]; exact hex)]
      by_cases hpj : p.1 = j
      · by_cases hjlen : j < freqs.length
        · rw [if_pos ⟨⟨p, List.mem_cons_self p ps, hpj⟩, hjlen⟩]
          rw [← hpj, getD_set_self _ _ _ _ (by omega)]
          rw [hps p (List.mem_cons_self p ps), hpj]
        · rw [if_neg (by tauto)]
          rw [List.set_eq_of_length_le (by omega)]
      · rw [getD_set_ne _ _ _ _ _ hpj]
        by_cases hjlen : j < freqs.length
        · rw [if_neg (by
            rintro ⟨⟨q, hq1, hq2⟩, -⟩
            rcases List.mem_cons.mp hq1 with hq3 | hq3
            · exact hpj (hq3 ▸ hq2)
            · exact hex ⟨⟨q, hq3, hq2⟩, hjlen⟩)]
        · rw [if_neg (by tauto)]

/-- The frequency table recovered from the built tree agrees with the
original table on every byte value. -/
theorem get_frequencies_create (t : List Nat) (j : Nat)
    (hj : j < POSSIBLE_BYTES) :
    (get_frequencies (huffman_tree_create t)).getD j 0 = t.getD j 0 := by
  by_cases h1 : 1 ≤ ((List.range POSSIBLE_BYTES).filter
      (fun i => 0 < t.getD i 0)).length
  · obtain ⟨-, -, hr3⟩ := huffman_tree_create_root_spec t h1
    rw [get_frequencies, get_frequencies_rec_eq]
    have hps : ∀ p ∈ leavesList (huffman_tree_create t).root,
        p.2 = t.getD p.1 0 := by
      intro p hp
      have hm : p ∈ (leavesList (huffman_tree_create t).root :
          Multiset (Nat × Nat)) := by simpa using hp
      rw [hr3] at hm
      have hm2 : p ∈ nonzeroPairs t := by simpa using hm
      unfold nonzeroPairs at hm2
      obtain ⟨i, -, hpair⟩ := List.mem_map.mp hm2
      rw [← hpair]
    rw [foldl_set_getD t _ _ _ hps]
    by_cases hpos : 0 < t.getD j 0
    · rw [if_pos]
      refine ⟨?_, by simpa using hj⟩
      have hmem : ((j, t.getD j 0) : Nat × Nat) ∈ nonzeroPairs t := by
        unfold nonzeroPairs
        exact List.mem_map.mpr ⟨j, List.mem_filter.mpr
          ⟨List.mem_range.mpr hj, by simpa using hpos⟩, rfl⟩
      have hm : ((j, t.getD j 0) : Nat × Nat) ∈
          (leavesList (huffman_tree_create t).root : Multiset (Nat × Nat)) := by
        rw [hr3]
        simpa using hmem
      exact ⟨(j, t.getD j 0), by simpa using hm, rfl⟩
    · rw [if_neg, List.getD_eq_getElem?_getD, List.getElem?_replicate]
      · have ht0 : t.getD j 0 = 0 := by omega
        rw [ht0]
        simp [hj]
      · rintro ⟨⟨p, hp1, hp2⟩, -⟩
        have hm : p ∈ (leavesList (huffman_tree_create t).root :
            Multiset (Nat × Nat)) := by simpa using hp1
        rw [hr3] at hm
        have hm2 : p ∈ nonzeroPairs t := by simpa using hm
        unfold nonzeroPairs at hm2
        obtain ⟨i, hi, hpair⟩ := List.mem_map.mp hm2
        have hib : i = p.1 := congrArg Prod.fst hpair
        have hval := (List.mem_filter.mp hi).2
        rw [hib, hp2] at hval
        exact hpos (by simpa using hval)
  · have hzero : ∀ i, i < POSSIBLE_BYTES → t.getD i 0 = 0 := by
      intro i hi
      by_contra hne
      have hmemf : i ∈ (List.range POSSIBLE_BYTES).filter
          (fun i => 0 < t.getD i 0) :=
        List.mem_filter.mpr ⟨List.mem_range.mpr hi, by
          simp only [decide_eq_true_eq]
          omega⟩
      have := List.length_pos.mpr (List.ne_nil_of_mem hmemf)
      omega
    have hbq : huffman_tree_build_queue t = [] := by
      obtain ⟨-, -, bc⟩ := build_queue_foldl_spec t (List.range POSSIBLE_BYTES)
        [] (by intro n hn; simp at hn)
      have hlen0 : ((List.range POSSIBLE_BYTES).filter
          (fun i => 0 < t.getD i 0)).length = 0 := by omega
      have : (huffman_tree_build_queue t).length = 0 := by
        rw [show huffman_tree_build_queue t = (List.range POSSIBLE_BYTES).foldl
          (fun pq i =>
            if 0 < t.getD i 0 then
              ptr_pq_insert huffman_node_compare pq
                (huffman_node_create i (t.getD i 0))
            else pq) [] from rfl, bc]
        simpa using hlen0
      exact List.length_eq_zero.mp this
    have hroot : (huffman_tree_create t).root = HuffmanNode.null := by
      rw [show (huffman_tree_create t).root =
        (match (ptr_pq_extract_min huffman_node_compare
            (huffman_tree_merge_loop (huffman_tree_build_queue t).length
              (huffman_tree_build_queue t))).1 with
          | some r => r
          | none => HuffmanNode.null) from rfl]
      rw [hbq]
      rfl
    rw [get_frequencies, hroot, hzero j hj]
    rw [show get_frequencies_rec HuffmanNode.null
      (List.replicate POSSIBLE_BYTES 0) =
        List.replicate POSSIBLE_BYTES 0 from rfl]
    rw [List.getD_eq_getElem?_getD, List.getElem?_replicate]
    simp [hj]

/-! ## Infrastructure for C6, writer side: on an unbounded sink, whole-byte
writes append exactly their bytes -/

theorem fwriteModel_none (w : BitStreamWriter) (data : List Nat)
    (hcap : w.file_cap = none) :
    fwriteModel w data = (data.length, { w with file := w.file ++ data }) := by
  unfold fwriteModel
  rw [hcap]

theorem flush_buffer_unbounded (w : BitStreamWriter) (hcap : w.file_cap = none) :
    flush_buffer w = (true, { w with file := w.file ++ w.buffer, buffer := [] }) := by
  unfold flush_buffer
  rw [fwriteModel_none w w.buffer hcap]
  by_cases h0 : w.buffer.length = 0
  · rw [if_pos h0]
    have hnil : w.buffer = [] := List.length_eq_zero.mp h0
    rcases w with ⟨file, cap, buffer, bsz, cur, bp, tb, he⟩
    simp only at hnil
    subst hnil
    simp
  · rw [if_neg h0]
    simp

theorem add_byte_to_buffer_unbounded (w : BitStreamWriter) (b : Nat)
    (hcap : w.file_cap = none) :
    (add_byte_to_buffer w b).1 = true ∧
      wcontent (add_byte_to_buffer w b).2 = wcontent w ++ [b] ∧
      (add_byte_to_buffer w b).2.file_cap = none ∧
      (add_byte_to_buffer w b).2.has_error = w.has_error ∧
      (add_byte_to_buffer w b).2.bit_pos = w.bit_pos ∧
      (add_byte_to_buffer w b).2.current_byte = w.current_byte ∧
      (add_byte_to_buffer w b).2.buffer_size = w.buffer_size := by
  unfold add_byte_to_buffer
  by_cases hfull : w.buffer.length ≥ w.buffer_size
  · rw [if_pos hfull, flush_buffer_unbounded w hcap]
    simp [wcontent, hcap]
  · rw [if_neg hfull]
    simp [wcontent, hcap]

theorem bsw_write_byte_aligned (w : BitStreamWriter) (b : Nat)
    (hcap : w.file_cap = none) (hbp : w.bit_pos = 0) :
    (bsw_write_byte w b).1 = true ∧
      wcontent (bsw_write_byte w b).2 = wcontent w ++ [b] ∧
      (bsw_write_byte w b).2.file_cap = none ∧
      (bsw_write_byte w b).2.has_error = w.has_error ∧
      (bsw_write_byte w b).2.bit_pos = 0 ∧
      (bsw_write_byte w b).2.current_byte = w.current_byte ∧
      (bsw_write_byte w b).2.buffer_size = w.buffer_size := by
  obtain ⟨h1, h2, h3, h4, h5, h6, h7⟩ := add_byte_to_buffer_unbounded w b hcap
  unfold bsw_write_byte
  rw [if_pos hbp]
  simp only [h1, Bool.true_eq_false, if_false]
  exact ⟨trivial, h2, h3, h4, h5.trans hbp, h6, h7⟩

theorem bsw_write_bytes_loop_aligned (data : List Nat) :
    ∀ (w : BitStreamWriter), w.file_cap = none → w.bit_pos = 0 →
      (bsw_write_bytes_loop data w).1 = true ∧
        wcontent (bsw_write_bytes_loop data w).2 = wcontent w ++ data ∧
        (bsw_write_bytes_loop data w).2.file_cap = none ∧
        (bsw_write_bytes_loop data w).2.has_error = w.has_error ∧
        (bsw_write_bytes_loop data w).2.bit_pos = 0 ∧
        (bsw_write_bytes_loop data w).2.current_byte = w.current_byte ∧
        (bsw_write_bytes_loop data w).2.buffer_size = w.buffer_size := by
  induction data with
  | nil =>
    intro w hcap hbp
    exact ⟨rfl, by simp [bsw_write_bytes_loop], hcap, rfl, hbp, rfl, rfl⟩
  | cons b rest ih =>
    intro w hcap hbp
    obtain ⟨h1, h2, h3, h4, h5, h6, h7⟩ := bsw_write_byte_aligned w b hcap hbp
    unfold bsw_write_bytes_loop
    simp only [h1, Bool.true_eq_false, if_false]
    obtain ⟨g1, g2, g3, g4, g5, g6, g7⟩ := ih (bsw_write_byte w b).2 h3 h5
    refine ⟨g1, ?_, g3, g4.trans h4, g5, g6.trans h6, g7.trans h7⟩
    rw [g2, h2]
    simp

theorem bsw_write_bytes_aligned (w : BitStreamWriter) (data : List Nat)
    (hcap : w.file_cap = none) (herr : w.has_error = false)
    (hbp : w.bit_pos = 0) :
    (bsw_write_bytes w data).1 = true ∧
      wcontent (bsw_write_bytes w data).2 = wcontent w ++ data ∧
      (bsw_write_bytes w data).2.file_cap = none ∧
      (bsw_write_bytes w data).2.has_error = false ∧
      (bsw_write_bytes w data).2.bit_pos = 0 ∧
      (bsw_write_bytes w data).2.current_byte = w.current_byte ∧
      (bsw_write_bytes w data).2.buffer_size = w.buffer_size := by
  unfold bsw_write_bytes
  rw [herr]
  simp only [Bool.false_eq_true, if_false]
  by_cases hfast : w.bit_pos = 0 ∧ 8 < data.length
  · rw [if_pos hfast]
    have hr0 : (if 0 < w.buffer.length then flush_buffer w else (true, w)) =
        (true, { w with file := w.file ++ w.buffer, buffer := [] }) := by
      by_cases hb : 0 < w.buffer.length
      · rw [if_pos hb, flush_buffer_unbounded w hcap]
      · rw [if_neg hb]
        have hnil : w.buffer = [] := by
          cases hbuf : w.buffer with
          | nil => rfl
          | cons x xs => rw [hbuf] at hb; simp at hb
        rcases w with ⟨file, cap, buffer, bsz, cur, bp, tb, he⟩
        simp only at hnil
        subst hnil
        simp
    simp only [hr0, Bool.true_eq_false, if_false]
    by_cases hbig : data.length ≥ w.buffer_size
    · rw [if_pos hbig, fwriteModel_none ({ w with file := w.file ++ w.buffer, buffer := [] } : BitStreamWriter) data hcap]
      refine ⟨?_, ?_, ?_, ?_, ?_, ?_, ?_⟩ <;> simp [wcontent, hcap, herr, hbp]
    · rw [if_neg hbig]
      refine ⟨?_, ?_, ?_, ?_, ?_, ?_, ?_⟩ <;> simp [wcontent, hcap, herr, hbp]
  · rw [if_neg hfast]
    obtain ⟨g1, g2, g3, g4, g5, g6, g7⟩ :=
      bsw_write_bytes_loop_aligned data w hcap hbp
    exact ⟨g1, g2, g3, g4.trans herr, g5, g6, g7⟩

theorem bsw_flush_aligned (w : BitStreamWriter) (hcap : w.file_cap = none)
    (hbp : w.bit_pos = 0) :
    bsw_flush w = (true, { w with file := w.file ++ w.buffer, buffer := [] }) := by
  unfold bsw_flush
  rw [hbp]
  simp only [Nat.lt_irrefl, if_false, Bool.true_eq_false]
  rw [flush_buffer_unbounded w hcap, hbp]

theorem bsw_align_to_byte_noop (w : BitStreamWriter) (hbp : w.bit_pos = 0) :
    bsw_align_to_byte w = (true, w) := by
  unfold bsw_align_to_byte
  rw [if_pos hbp]

theorem save_acc_append (freqs : List Nat) :
    ∀ (js : List Nat) (a : List Nat),
      js.foldl (fun acc i => if 0 < freqs.getD i 0 then
        acc ++ freq_entry_bytes i (freqs.getD i 0) else acc) a =
      a ++ js.foldl (fun acc i => if 0 < freqs.getD i 0 then
        acc ++ freq_entry_bytes i (freqs.getD i 0) else acc) [] := by
  intro js
  induction js with
  | nil => intro a; simp
  | cons j js ih =>
    intro a
    simp only [List.foldl_cons, List.nil_append]
    by_cases hP : 0 < freqs.getD j 0
    · rw [if_pos hP, if_pos hP, ih, ih (freq_entry_bytes j (freqs.getD j 0))]
      simp
    · rw [if_neg hP, if_neg hP, ih]

theorem save_entry_foldl (freqs : List Nat) :
    ∀ (js : List Nat) (w : BitStreamWriter), w.file_cap = none →
      w.has_error = false → w.bit_pos = 0 →
      wcontent (js.foldl (fun w i =>
        if 0 < freqs.getD i 0 then
          (bsw_write_bytes w (freq_entry_bytes i (freqs.getD i 0))).2
        else w) w) =
        wcontent w ++ js.foldl (fun acc i =>
          if 0 < freqs.getD i 0 then
            acc ++ freq_entry_bytes i (freqs.getD i 0) else acc) [] ∧
      (js.foldl (fun w i =>
        if 0 < freqs.getD i 0 then
          (bsw_write_bytes w (freq_entry_bytes i (freqs.getD i 0))).2
        else w) w).file_cap = none ∧
      (js.foldl (fun w i =>
        if 0 < freqs.getD i 0 then
          (bsw_write_bytes w (freq_entry_bytes i (freqs.getD i 0))).2
        else w) w).has_error = false ∧
      (js.foldl (fun w i =>
        if 0 < freqs.getD i 0 then
          (bsw_write_bytes w (freq_entry_bytes i (freqs.getD i 0))).2
        else w) w).bit_pos = 0 := by
  intro js
  induction js with
  | nil =>
    intro w hcap herr hbp
    exact ⟨by simp, hcap, herr, hbp⟩
  | cons j js ih =>
    intro w hcap herr hbp
    simp only [List.foldl_cons, List.nil_append]
    by_cases hj : 0 < freqs.getD j 0
    · rw [if_pos hj, if_pos hj]
      obtain ⟨g1, g2, g3, g4, g5, g6, g7⟩ :=
        bsw_write_bytes_aligned w (freq_entry_bytes j (freqs.getD j 0))
          hcap herr hbp
      obtain ⟨f1, f2, f3, f4⟩ := ih _ g3 g4 g5
      refine ⟨?_, f2, f3, f4⟩
      rw [f1, g2, save_acc_append freqs js (freq_entry_bytes j (freqs.getD j 0)), List.append_assoc]
    · rw [if_neg hj, if_neg hj]
      exact ih w hcap herr hbp

theorem huffman_tree_save_spec (tree : HuffmanTreeType) (w : BitStreamWriter)
    (hcap : w.file_cap = none) (herr : w.has_error = false)
    (hbp : w.bit_pos = 0) :
    (huffman_tree_save tree w).1 = true ∧
      (huffman_tree_save tree w).2.file =
        wcontent w ++ header_bytes (get_frequencies tree) := by
  unfold huffman_tree_save
  obtain ⟨f1, f2, f3, f4⟩ := save_entry_foldl (get_frequencies tree)
    (List.range POSSIBLE_BYTES) w hcap herr hbp
  set w1 := (List.range POSSIBLE_BYTES).foldl (fun w i =>
    if 0 < (get_frequencies tree).getD i 0 then
      (bsw_write_bytes w (freq_entry_bytes i
        ((get_frequencies tree).getD i 0))).2
    else w) w with hw1
  obtain ⟨a1, a2, a3, a4, a5, a6, a7⟩ := bsw_write_byte_aligned w1 0 f2 f4
  obtain ⟨b1, b2, b3, b4, b5, b6, b7⟩ :=
    bsw_write_byte_aligned (bsw_write_byte w1 0).2 0 a3 a5
  obtain ⟨c1, c2, c3, c4, c5, c6, c7⟩ :=
    bsw_write_byte_aligned (bsw_write_byte (bsw_write_byte w1 0).2 0).2 0 b3 b5
  obtain ⟨d1, d2, d3, d4, d5, d6, d7⟩ :=
    bsw_write_byte_aligned
      (bsw_write_byte (bsw_write_byte (bsw_write_byte w1 0).2 0).2 0).2 0 c3 c5
  have hrange : (List.range 4) = [0, 1, 2, 3] := by decide
  rw [hrange]
  simp only [List.foldl_cons, List.foldl_nil]
  set w2 := (bsw_write_byte (bsw_write_byte (bsw_write_byte
    (bsw_write_byte w1 0).2 0).2 0).2 0).2 with hw2
  rw [bsw_align_to_byte_noop w2 d5, bsw_flush_aligned w2 d3 d5]
  refine ⟨rfl, ?_⟩
  have hw2c : wcontent w2 = wcontent w1 ++ [0, 0, 0, 0] := by
    rw [hw2, d2, c2, b2, a2]
    simp
  have hfl : ({ w2 with file := w2.file ++ w2.buffer, buffer := [] } : BitStreamWriter).file = wcontent w2 := rfl
  rw [hfl, hw2c, f1, header_bytes, ← List.append_assoc]

/-! ## Infrastructure for C6, reader side: a byte-aligned healthy reader
delivers the remaining bytes of its source in order -/

theorem getD_drop (l : List Nat) (n i d : Nat) :
    (l.drop n).getD i d = l.getD (n + i) d := by
  rw [List.getD_eq_getElem?_getD, List.getD_eq_getElem?_getD,
    List.getElem?_drop]

theorem getD_append_lt (l l' : List Nat) (i d : Nat) (h : i < l.length) :
    (l ++ l').getD i d = l.getD i d := by
  rw [List.getD_eq_getElem?_getD, List.getD_eq_getElem?_getD,
    List.getElem?_append, if_pos h]

theorem drop_min_length (l : List Nat) (n : Nat) :
    l.drop (min n l.length) = l.drop n := by
  rcases Nat.le_total n l.length with h | h
  · rw [Nat.min_eq_left h]
  · rw [Nat.min_eq_right h, List.drop_eq_nil_of_le le_rfl,
      List.drop_eq_nil_of_le h]

theorem read_next_byte_ok (r : BitStreamReader) (h : ROk r)
    (hne : 0 < (rrem r).length) :
    (read_next_byte r).1 = true ∧
      (read_next_byte r).2.has_error = false ∧
      (read_next_byte r).2.read_fail = false ∧
      (read_next_byte r).2.bit_pos = 0 ∧
      (read_next_byte r).2.is_eof = false ∧
      (read_next_byte r).2.buffer_pos ≤ (read_next_byte r).2.buffer.length ∧
      (read_next_byte r).2.file_pos ≤ (read_next_byte r).2.file.length ∧
      (read_next_byte r).2.buffer_size = r.buffer_size ∧
      (read_next_byte r).2.file = r.file ∧
      (read_next_byte r).2.current_byte = (rrem r).getD 0 0 ∧
      (read_next_byte r).2.buffer.drop (read_next_byte r).2.buffer_pos ++
          (read_next_byte r).2.file.drop (read_next_byte r).2.file_pos =
        (rrem r).drop 1 := by
  obtain ⟨he, hrf, hbp, hbl, hfl, hbs, heof⟩ := h
  unfold read_next_byte
  rw [hbp]
  simp only [ne_eq, not_true_eq_false, Bool.false_eq_true, if_false,
    reduceIte]
  by_cases hb : r.buffer_pos ≥ r.buffer.length
  · -- buffer exhausted: the unread bytes all sit in the source
    have hbnil : r.buffer.drop r.buffer_pos = [] :=
      List.drop_eq_nil_of_le hb
    have hrr : rrem r = r.file.drop r.file_pos := by
      rw [rrem, hbnil, List.nil_append]
    rw [if_pos hb]
    unfold refill_buffer
    rw [heof, hrf]
    simp only [Bool.false_eq_true, if_false, reduceIte]
    have hfp : r.file_pos < r.file.length := by
      rw [hrr, List.length_drop] at hne
      omega
    have hchunk : 0 < ((r.file.drop r.file_pos).take r.buffer_size).length := by
      rw [List.length_take, List.length_drop]
      omega
    rw [if_neg (show ¬ ((r.file.drop r.file_pos).take r.buffer_size).length = 0 from by rw [List.length_take, List.length_drop]; omega)]
    simp only [Bool.true_eq_false, if_false, reduceIte]
    refine ⟨trivial, he, trivial, trivial, trivial, ?_, ?_, trivial, trivial, ?_, ?_⟩
    · exact hchunk
    · simp only [List.length_take, List.length_drop]
      omega
    · rw [hrr, List.getD_eq_getElem?_getD, List.getD_eq_getElem?_getD,
        List.getElem?_take, if_pos (by omega)]
    · rw [hrr]
      have hdd : r.file.drop (r.file_pos +
          ((r.file.drop r.file_pos).take r.buffer_size).length) =
          (r.file.drop r.file_pos).drop r.buffer_size := by
        rw [← List.drop_drop]
        by_cases hcase : r.buffer_size ≤ (r.file.drop r.file_pos).length
        · rw [show ((r.file.drop r.file_pos).take r.buffer_size).length = r.buffer_size from by rw [List.length_take]; omega]
        · rw [show ((r.file.drop r.file_pos).take r.buffer_size).length = (r.file.drop r.file_pos).length from by rw [List.length_take]; omega]
          rw [List.drop_eq_nil_of_le le_rfl, List.drop_eq_nil_of_le (by omega)]
      rw [hdd]
      have := List.take_append_drop r.buffer_size (r.file.drop r.file_pos)
      calc ((r.file.drop r.file_pos).take r.buffer_size).drop 1 ++
            (r.file.drop r.file_pos).drop r.buffer_size
          = ((r.file.drop r.file_pos).take r.buffer_size ++
              (r.file.drop r.file_pos).drop r.buffer_size).drop 1 := by
            rw [List.drop_append_eq_append_drop]
            rw [show 1 - ((r.file.drop r.file_pos).take r.buffer_size).length
              = 0 from by omega, List.drop_zero]
        _ = (r.file.drop r.file_pos).drop 1 := by rw [this]
  · -- bytes still buffered
    have hlt : r.buffer_pos < r.buffer.length := by omega
    rw [if_neg hb]
    simp only [Bool.true_eq_false, if_false, reduceIte]
    refine ⟨trivial, he, hrf, trivial, heof, by omega, hfl, trivial, trivial, ?_, ?_⟩
    · rw [rrem, getD_append_lt _ _ _ _ (by simp [List.length_drop]; omega),
        getD_drop, Nat.add_zero]
    · rw [rrem, List.drop_append_eq_append_drop,
        show 1 - (r.buffer.drop r.buffer_pos).length = 0 from by
          simp [List.length_drop]; omega,
        List.drop_drop, List.drop_zero]

theorem bsr_read_byte_ok (r : BitStreamReader) (h : ROk r)
    (hne : 0 < (rrem r).length) :
    (bsr_read_byte r).1 = some ((rrem r).getD 0 0) ∧
      ROk (bsr_read_byte r).2 ∧
      rrem (bsr_read_byte r).2 = (rrem r).drop 1 ∧
      (bsr_read_byte r).2.file = r.file ∧
      (bsr_read_byte r).2.buffer_size = r.buffer_size := by
  obtain ⟨h1, h2, h3, h4, h5, h6, h7, h8, h9, h10, h11⟩ :=
    read_next_byte_ok r h hne
  unfold bsr_read_byte
  rw [h.1]
  simp only [Bool.false_eq_true, if_false, reduceIte, h1, Bool.true_eq_false,
    h4]
  refine ⟨by rw [h10], ⟨h2, h3, rfl, h6, h7, by rw [h8]; exact h.2.2.2.2.2.1,
    h5⟩, ?_, h9, h8⟩
  rw [rrem]
  exact h11

theorem bsr_read_bytes_tail_loop_ok :
    ∀ (k : Nat) (r : BitStreamReader), ROk r → k ≤ (rrem r).length →
      (bsr_read_bytes_tail_loop k r).1 = (rrem r).take k ∧
        ROk (bsr_read_bytes_tail_loop k r).2 ∧
        rrem (bsr_read_bytes_tail_loop k r).2 = (rrem r).drop k ∧
        (bsr_read_bytes_tail_loop k r).2.file = r.file ∧
        (bsr_read_bytes_tail_loop k r).2.buffer_size = r.buffer_size := by
  intro k
  induction k with
  | zero =>
    intro r h _
    exact ⟨by simp [bsr_read_bytes_tail_loop], h, by
      simp [bsr_read_bytes_tail_loop], rfl, rfl⟩
  | succ k ih =>
    intro r h hk
    obtain ⟨g1, g2, g3, g4, g5⟩ := bsr_read_byte_ok r h (by omega)
    unfold bsr_read_bytes_tail_loop
    simp only [g1]
    obtain ⟨f1, f2, f3, f4, f5⟩ := ih (bsr_read_byte r).2 g2
      (by rw [g3, List.length_drop]; omega)
    refine ⟨?_, f2, ?_, f4.trans g4, f5.trans g5⟩
    · rw [f1, g3]
      obtain ⟨a, l, hal⟩ : ∃ a l, rrem r = a :: l := by
        cases hrr : rrem r with
        | nil => rw [hrr] at hk; simp at hk
        | cons a l => exact ⟨a, l, rfl⟩
      rw [hal]
      simp
    · rw [f3, g3, List.drop_drop, Nat.add_comm 1 k]

theorem bsr_read_byte_latched (r2 : BitStreamReader)
    (he : r2.has_error = false) (hbp : r2.bit_pos = 0) :
    bsr_read_byte r2 =
      (some r2.current_byte,
       { r2 with bit_pos := 8, total_bits := r2.total_bits + 8 }) := by
  unfold bsr_read_byte read_next_byte
  simp [he, hbp]

theorem take_append_drop_length (L : List Nat) (n : Nat) :
    L.take n ++ L.drop (L.take n).length = L := by
  rw [List.length_take, drop_min_length, List.take_append_drop]

theorem refill_buffer_ok (r : BitStreamReader) (hrf : r.read_fail = false)
    (heof : r.is_eof = false) (hfp : r.file_pos < r.file.length)
    (hbs : 0 < r.buffer_size) :
    refill_buffer r = (true,
      { r with buffer := (r.file.drop r.file_pos).take r.buffer_size,
               buffer_pos := 0,
               file_pos := r.file_pos +
                 ((r.file.drop r.file_pos).take r.buffer_size).length }) := by
  unfold refill_buffer
  rw [heof, hrf]
  simp only [Bool.false_eq_true, if_false, reduceIte]
  rw [if_neg (show ¬ ((r.file.drop r.file_pos).take r.buffer_size).length = 0 from by rw [List.length_take, List.length_drop]; omega)]

theorem refill_fst_true (r : BitStreamReader) (hrf : r.read_fail = false)
    (heof : r.is_eof = false) (hfp : r.file_pos < r.file.length)
    (hbs : 0 < r.buffer_size) : (refill_buffer r).1 = true := by
  rw [refill_buffer_ok r hrf heof hfp hbs]

theorem tail_after_refill (r5 : BitStreamReader) (req : Nat)
    (he : r5.has_error = false) (hrf : r5.read_fail = false)
    (heof : r5.is_eof = false) (hbp : r5.bit_pos = 8)
    (hbs : 4 ≤ r5.buffer_size) (hfp : r5.file_pos < r5.file.length)
    (hreq : req ≤ r5.file.length - r5.file_pos) :
    (bsr_read_bytes_tail_loop req (refill_buffer r5).2).1 =
        (r5.file.drop r5.file_pos).take req ∧
      ROk (bsr_read_bytes_tail_loop req (refill_buffer r5).2).2 ∧
      rrem (bsr_read_bytes_tail_loop req (refill_buffer r5).2).2 =
        (r5.file.drop r5.file_pos).drop req ∧
      (bsr_read_bytes_tail_loop req (refill_buffer r5).2).2.file = r5.file ∧
      (bsr_read_bytes_tail_loop req (refill_buffer r5).2).2.buffer_size =
        r5.buffer_size := by
  rw [refill_buffer_ok r5 hrf heof hfp (by omega)]
  have hr6 : ROk { r5 with buffer := (r5.file.drop r5.file_pos).take r5.buffer_size, buffer_pos := 0, file_pos := r5.file_pos + ((r5.file.drop r5.file_pos).take r5.buffer_size).length } := by
    refine ⟨he, hrf, hbp, by simp, ?_, hbs, heof⟩
    simp only [List.length_take, List.length_drop]
    omega
  have hrr6 : rrem { r5 with buffer := (r5.file.drop r5.file_pos).take r5.buffer_size, buffer_pos := 0, file_pos := r5.file_pos + ((r5.file.drop r5.file_pos).take r5.buffer_size).length } = r5.file.drop r5.file_pos := by
    rw [rrem]
    simp only [List.drop_zero]
    rw [← List.drop_drop, take_append_drop_length]
  obtain ⟨t1, t2, t3, t4, t5⟩ := bsr_read_bytes_tail_loop_ok req _ hr6
    (by rw [hrr6, List.length_drop]; omega)
  rw [hrr6] at t1 t3
  exact ⟨t1, t2, t3, t4, t5⟩

theorem tail_refill_fst (r5 : BitStreamReader) (req : Nat)
    (he : r5.has_error = false) (hrf : r5.read_fail = false)
    (heof : r5.is_eof = false) (hbp : r5.bit_pos = 8)
    (hbs : 4 ≤ r5.buffer_size) (hfp : r5.file_pos < r5.file.length)
    (hreq : req ≤ r5.file.length - r5.file_pos) :
    (bsr_read_bytes_tail_loop req (refill_buffer r5).2).1 =
      (r5.file.drop r5.file_pos).take req :=
  (tail_after_refill r5 req he hrf heof hbp hbs hfp hreq).1

theorem tail_refill_rok (r5 : BitStreamReader) (req : Nat)
    (he : r5.has_error = false) (hrf : r5.read_fail = false)
    (heof : r5.is_eof = false) (hbp : r5.bit_pos = 8)
    (hbs : 4 ≤ r5.buffer_size) (hfp : r5.file_pos < r5.file.length)
    (hreq : req ≤ r5.file.length - r5.file_pos) :
    ROk (bsr_read_bytes_tail_loop req (refill_buffer r5).2).2 :=
  (tail_after_refill r5 req he hrf heof hbp hbs hfp hreq).2.1

theorem tail_refill_rrem (r5 : BitStreamReader) (req : Nat)
    (he : r5.has_error = false) (hrf : r5.read_fail = false)
    (heof : r5.is_eof = false) (hbp : r5.bit_pos = 8)
    (hbs : 4 ≤ r5.buffer_size) (hfp : r5.file_pos < r5.file.length)
    (hreq : req ≤ r5.file.length - r5.file_pos) :
    rrem (bsr_read_bytes_tail_loop req (refill_buffer r5).2).2 =
      (r5.file.drop r5.file_pos).drop req :=
  (tail_after_refill r5 req he hrf heof hbp hbs hfp hreq).2.2.1

theorem tail_refill_file (r5 : BitStreamReader) (req : Nat)
    (he : r5.has_error = false) (hrf : r5.read_fail = false)
    (heof : r5.is_eof = false) (hbp : r5.bit_pos = 8)
    (hbs : 4 ≤ r5.buffer_size) (hfp : r5.file_pos < r5.file.length)
    (hreq : req ≤ r5.file.length - r5.file_pos) :
    (bsr_read_bytes_tail_loop req (refill_buffer r5).2).2.file = r5.file :=
  (tail_after_refill r5 req he hrf heof hbp hbs hfp hreq).2.2.2.1

theorem tail_refill_bsize (r5 : BitStreamReader) (req : Nat)
    (he : r5.has_error = false) (hrf : r5.read_fail = false)
    (heof : r5.is_eof = false) (hbp : r5.bit_pos = 8)
    (hbs : 4 ≤ r5.buffer_size) (hfp : r5.file_pos < r5.file.length)
    (hreq : req ≤ r5.file.length - r5.file_pos) :
    (bsr_read_bytes_tail_loop req (refill_buffer r5).2).2.buffer_size =
      r5.buffer_size :=
  (tail_after_refill r5 req he hrf heof hbp hbs hfp hreq).2.2.2.2

theorem bsr_read_bytes_four (r : BitStreamReader) (h : ROk r)
    (hlen : 4 ≤ (rrem r).length) :
    (bsr_read_bytes r 4).1 = (rrem r).take 4 ∧
      ROk (bsr_read_bytes r 4).2 ∧
      rrem (bsr_read_bytes r 4).2 = (rrem r).drop 4 ∧
      (bsr_read_bytes r 4).2.file = r.file ∧
      (bsr_read_bytes r 4).2.buffer_size = r.buffer_size := by
  obtain ⟨h1, h2, h3, h4, h5, h6, h7, h8, h9, h10, h11⟩ :=
    read_next_byte_ok r h (by omega)
  obtain ⟨a, l, hal⟩ : ∃ a l, rrem r = a :: l := by
    cases hrr : rrem r with
    | nil => rw [hrr] at hlen; simp at hlen
    | cons a l => exact ⟨a, l, rfl⟩
  have hllen : 3 ≤ l.length := by
    rw [hal] at hlen
    simp only [List.length_cons] at hlen
    omega
  have htake : (rrem r).take 4 = a :: l.take 3 := by rw [hal]; rfl
  have hdrop : (rrem r).drop 4 = l.drop 3 := by rw [hal]; rfl
  have hb0 : (read_next_byte r).2.current_byte = a := by
    rw [h10, hal]; rfl
  have hl : (read_next_byte r).2.buffer.drop (read_next_byte r).2.buffer_pos ++
      (read_next_byte r).2.file.drop (read_next_byte r).2.file_pos = l := by
    rw [h11, hal]; rfl
  have hAlen : ((read_next_byte r).2.buffer.drop
      (read_next_byte r).2.buffer_pos).length =
      (read_next_byte r).2.buffer.length - (read_next_byte r).2.buffer_pos :=
    List.length_drop _ _
  have hFlen : ((read_next_byte r).2.file.drop
      (read_next_byte r).2.file_pos).length =
      (read_next_byte r).2.file.length - (read_next_byte r).2.file_pos :=
    List.length_drop _ _
  have hsum : ((read_next_byte r).2.buffer.drop
        (read_next_byte r).2.buffer_pos).length +
      ((read_next_byte r).2.file.drop
        (read_next_byte r).2.file_pos).length = l.length := by
    rw [← List.length_append, hl]
  rw [htake, hdrop]
  unfold bsr_read_bytes
  rw [h.1]
  simp only [Bool.false_eq_true, if_false, reduceIte, h1, Bool.true_eq_false,
    h4, bsr_read_byte_latched (read_next_byte r).2 h2 h4, hb0]
  have hbs4 : 4 ≤ (read_next_byte r).2.buffer_size := by
    rw [h8]
    exact h.2.2.2.2.2.1
  rw [if_neg (show ¬ ((4 : Nat) = 1) from by omega)]
  by_cases hpos : (read_next_byte r).2.buffer_pos < (read_next_byte r).2.buffer.length
  · rw [if_pos hpos]
    by_cases hm3 : (read_next_byte r).2.buffer_pos + 3 ≤ (read_next_byte r).2.buffer.length
    · -- at least 3 more bytes sit in the buffer: pure memcpy, no refill
      rw [show min (4 - 1) ((read_next_byte r).2.buffer.length - (read_next_byte r).2.buffer_pos) = 3 from by omega]
      rw [if_pos (show (a :: List.take 3 (List.drop (read_next_byte r).2.buffer_pos (read_next_byte r).2.buffer)).length = 4 from by simp only [List.length_cons, List.length_take, List.length_drop]; omega)]
      have hA3 : List.take 3 l = List.take 3 (List.drop (read_next_byte r).2.buffer_pos (read_next_byte r).2.buffer) := by
        rw [← hl, List.take_append_eq_append_take, show 3 - (List.drop (read_next_byte r).2.buffer_pos (read_next_byte r).2.buffer).length = 0 from by omega]
        simp
      have hD3 : List.drop 3 l = List.drop ((read_next_byte r).2.buffer_pos + 3) (read_next_byte r).2.buffer ++ List.drop (read_next_byte r).2.file_pos (read_next_byte r).2.file := by
        rw [← hl, List.drop_append_eq_append_drop, show 3 - (List.drop (read_next_byte r).2.buffer_pos (read_next_byte r).2.buffer).length = 0 from by omega, List.drop_zero, List.drop_drop]
      refine ⟨?_, ⟨h2, h3, rfl, by simp only []; omega, h7, hbs4, h5⟩, ?_, h9, h8⟩
      · rw [hA3]
      · rw [rrem, hD3]
    · -- 1 or 2 more bytes in the buffer, then a refill and the byte loop
      have hm12 : (read_next_byte r).2.buffer.length - (read_next_byte r).2.buffer_pos = 1 ∨ (read_next_byte r).2.buffer.length - (read_next_byte r).2.buffer_pos = 2 := by omega
      have hFlen3 : 1 ≤ ((read_next_byte r).2.file.drop (read_next_byte r).2.file_pos).length := by omega
      rcases hm12 with hm | hm
      · rw [hm, show min (4 - 1) 1 = 1 from by omega,
          List.take_of_length_le (show (List.drop (read_next_byte r).2.buffer_pos (read_next_byte r).2.buffer).length ≤ 1 from by omega)]
        rw [if_neg (show ¬ ((a :: List.drop (read_next_byte r).2.buffer_pos (read_next_byte r).2.buffer).length = 4) from by simp only [List.length_cons]; omega)]
        rw [show (4 : Nat) - (a :: List.drop (read_next_byte r).2.buffer_pos (read_next_byte r).2.buffer).length = 2 from by simp only [List.length_cons]; omega]
        rw [if_neg (show ¬ ((2 : Nat) ≥ (read_next_byte r).2.buffer_size) from by omega)]
        rw [refill_fst_true]
        rotate_left
        · exact h3
        · exact h5
        · simp only []
          omega
        · simp only []
          omega
        simp only [Bool.true_eq_false, false_and, if_false, reduceIte]
        refine ⟨?_, ?_, ?_, ?_, ?_⟩
        · rw [tail_refill_fst]
          rotate_left
          · exact h2
          · exact h3
          · exact h5
          · rfl
          · exact hbs4
          · simp only []
            omega
          · simp only []
            omega
          simp only [List.cons_append]
          rw [show List.take 3 l = List.drop (read_next_byte r).2.buffer_pos (read_next_byte r).2.buffer ++ List.take 2 (List.drop (read_next_byte r).2.file_pos (read_next_byte r).2.file) from by rw [← hl, List.take_append_eq_append_take, List.take_of_length_le (show (List.drop (read_next_byte r).2.buffer_pos (read_next_byte r).2.buffer).length ≤ 3 from by omega), show 3 - (List.drop (read_next_byte r).2.buffer_pos (read_next_byte r).2.buffer).length = 2 from by omega]]
        · refine tail_refill_rok _ _ h2 h3 h5 rfl hbs4 ?_ ?_
          · simp only []
            omega
          · simp only []
            omega
        · rw [tail_refill_rrem]
          rotate_left
          · exact h2
          · exact h3
          · exact h5
          · rfl
          · exact hbs4
          · simp only []
            omega
          · simp only []
            omega
          rw [show List.drop 3 l = List.drop 2 (List.drop (read_next_byte r).2.file_pos (read_next_byte r).2.file) from by rw [← hl, List.drop_append_eq_append_drop, List.drop_eq_nil_of_le (show (List.drop (read_next_byte r).2.buffer_pos (read_next_byte r).2.buffer).length ≤ 3 from by omega), show 3 - (List.drop (read_next_byte r).2.buffer_pos (read_next_byte r).2.buffer).length = 2 from by omega, List.nil_append]]
        · rw [tail_refill_file]
          rotate_left
          · exact h2
          · exact h3
          · exact h5
          · rfl
          · exact hbs4
          · simp only []
            omega
          · simp only []
            omega
          exact h9
        · rw [tail_refill_bsize]
          rotate_left
          · exact h2
          · exact h3
          · exact h5
          · rfl
          · exact hbs4
          · simp only []
            omega
          · simp only []
            omega
          exact h8
      · rw [hm, show min (4 - 1) 2 = 2 from by omega,
          List.take_of_length_le (show (List.drop (read_next_byte r).2.buffer_pos (read_next_byte r).2.buffer).length ≤ 2 from by omega)]
        rw [if_neg (show ¬ ((a :: List.drop (read_next_byte r).2.buffer_pos (read_next_byte r).2.buffer).length = 4) from by simp only [List.length_cons]; omega)]
        rw [show (4 : Nat) - (a :: List.drop (read_next_byte r).2.buffer_pos (read_next_byte r).2.buffer).length = 1 from by simp only [List.length_cons]; omega]
        rw [if_neg (show ¬ ((1 : Nat) ≥ (read_next_byte r).2.buffer_size) from by omega)]
        rw [refill_fst_true]
        rotate_left
        · exact h3
        · exact h5
        · simp only []
          omega
        · simp only []
          omega
        simp only [Bool.true_eq_false, false_and, if_false, reduceIte]
        refine ⟨?_, ?_, ?_, ?_, ?_⟩
        · rw [tail_refill_fst]
          rotate_left
          · exact h2
          · exact h3
          · exact h5
          · rfl
          · exact hbs4
          · simp only []
            omega
          · simp only []
            omega
          simp only [List.cons_append]
          rw [show List.take 3 l = List.drop (read_next_byte r).2.buffer_pos (read_next_byte r).2.buffer ++ List.take 1 (List.drop (read_next_byte r).2.file_pos (read_next_byte r).2.file) from by rw [← hl, List.take_append_eq_append_take, List.take_of_length_le (show (List.drop (read_next_byte r).2.buffer_pos (read_next_byte r).2.buffer).length ≤ 3 from by omega), show 3 - (List.drop (read_next_byte r).2.buffer_pos (read_next_byte r).2.buffer).length = 1 from by omega]]
        · refine tail_refill_rok _ _ h2 h3 h5 rfl hbs4 ?_ ?_
          · simp only []
            omega
          · simp only []
            omega
        · rw [tail_refill_rrem]
          rotate_left
          · exact h2
          · exact h3
          · exact h5
          · rfl
          · exact hbs4
          · simp only []
            omega
          · simp only []
            omega
          rw [show List.drop 3 l = List.drop 1 (List.drop (read_next_byte r).2.file_pos (read_next_byte r).2.file) from by rw [← hl, List.drop_append_eq_append_drop, List.drop_eq_nil_of_le (show (List.drop (read_next_byte r).2.buffer_pos (read_next_byte r).2.buffer).length ≤ 3 from by omega), show 3 - (List.drop (read_next_byte r).2.buffer_pos (read_next_byte r).2.buffer).length = 1 from by omega, List.nil_append]]
        · rw [tail_refill_file]
          rotate_left
          · exact h2
          · exact h3
          · exact h5
          · rfl
          · exact hbs4
          · simp only []
            omega
          · simp only []
            omega
          exact h9
        · rw [tail_refill_bsize]
          rotate_left
          · exact h2
          · exact h3
          · exact h5
          · rfl
          · exact hbs4
          · simp only []
            omega
          · simp only []
            omega
          exact h8
  · -- nothing buffered: everything after the first byte comes from a refill
    have hAnil : List.drop (read_next_byte r).2.buffer_pos (read_next_byte r).2.buffer = [] :=
      List.drop_eq_nil_of_le (by omega)
    have hF : List.drop (read_next_byte r).2.file_pos (read_next_byte r).2.file = l := by
      rw [← hl, hAnil, List.nil_append]
    have hFlen3 : 3 ≤ ((read_next_byte r).2.file.drop (read_next_byte r).2.file_pos).length := by
      rw [hF]
      omega
    rw [if_neg hpos]
    rw [if_neg (show ¬ ((a :: ([] : List Nat)).length = 4) from by simp)]
    rw [show (4 : Nat) - (a :: ([] : List Nat)).length = 3 from by simp]
    rw [if_neg (show ¬ ((3 : Nat) ≥ (read_next_byte r).2.buffer_size) from by omega)]
    rw [refill_fst_true]
    rotate_left
    · exact h3
    · exact h5
    · simp only []
      omega
    · simp only []
      omega
    simp only [Bool.true_eq_false, false_and, if_false, reduceIte]
    refine ⟨?_, ?_, ?_, ?_, ?_⟩
    · rw [tail_refill_fst]
      rotate_left
      · exact h2
      · exact h3
      · exact h5
      · rfl
      · exact hbs4
      · simp only []
        omega
      · simp only []
        omega
      simp only [List.cons_append, List.nil_append]
      rw [hF]
    · refine tail_refill_rok _ _ h2 h3 h5 rfl hbs4 ?_ ?_
      · simp only []
        omega
      · simp only []
        omega
    · rw [tail_refill_rrem]
      rotate_left
      · exact h2
      · exact h3
      · exact h5
      · rfl
      · exact hbs4
      · simp only []
        omega
      · simp only []
        omega
      rw [hF]
    · rw [tail_refill_file]
      rotate_left
      · exact h2
      · exact h3
      · exact h5
      · rfl
      · exact hbs4
      · simp only []
        omega
      · simp only []
        omega
      exact h9
    · rw [tail_refill_bsize]
      rotate_left
      · exact h2
      · exact h3
      · exact h5
      · rfl
      · exact hbs4
      · simp only []
        omega
      · simp only []
        omega
      exact h8

/-! ## Infrastructure for C6: parsing the header back -/

theorem reassemble24 (f : Nat) (hf : f < 2 ^ 24) :
    ((f >>> 16) % 256) <<< 16 ||| ((f >>> 8) % 256) <<< 8 ||| f % 256 = f := by
  have h256 : (256 : Nat) = 2 ^ 8 := by norm_num
  apply Nat.eq_of_testBit_eq
  intro i
  rw [Nat.testBit_or, Nat.testBit_or, Nat.testBit_shiftLeft,
    Nat.testBit_shiftLeft, h256, Nat.testBit_mod_two_pow,
    Nat.testBit_mod_two_pow, Nat.testBit_mod_two_pow, Nat.testBit_shiftRight,
    Nat.testBit_shiftRight]
  rcases Nat.lt_or_ge i 8 with hi1 | hi1
  · rw [show (decide (16 ≤ i)) = false from by simp; omega,
      show (decide (8 ≤ i)) = false from by simp; omega,
      show (decide (i < 8)) = true from by simp [hi1]]
    simp
  rcases Nat.lt_or_ge i 16 with hi2 | hi2
  · rw [show (decide (16 ≤ i)) = false from by simp; omega,
      show (decide (8 ≤ i)) = true from by simp [hi1],
      show (decide (i - 8 < 8)) = true from by simp; omega,
      show (decide (i < 8)) = false from by simp; omega,
      show 8 + (i - 8) = i from by omega]
    simp
  rcases Nat.lt_or_ge i 24 with hi3 | hi3
  · rw [show (decide (16 ≤ i)) = true from by simp [hi2],
      show (decide (i - 16 < 8)) = true from by simp; omega,
      show (decide (8 ≤ i)) = true from by simp; omega,
      show (decide (i - 8 < 8)) = false from by simp; omega,
      show (decide (i < 8)) = false from by simp; omega,
      show 16 + (i - 16) = i from by omega]
    simp
  · rw [show (decide (i - 16 < 8)) = false from by simp; omega,
      show (decide (i - 8 < 8)) = false from by simp; omega,
      show (decide (i < 8)) = false from by simp; omega]
    simp
    exact Nat.testBit_lt_two_pow (lt_of_lt_of_le hf
      (Nat.pow_le_pow_right (by omega) hi3))

theorem entry_fold_length (u : List Nat) :
    ∀ js : List Nat,
      (js.foldl (fun acc i => if 0 < u.getD i 0 then
        acc ++ freq_entry_bytes i (u.getD i 0) else acc) []).length =
      4 * js.countP (fun i => decide (0 < u.getD i 0)) := by
  intro js
  induction js with
  | nil => simp
  | cons j js ih =>
    rw [List.foldl_cons, save_acc_append, List.length_append, ih,
      List.countP_cons]
    by_cases hj : 0 < u.getD j 0
    · rw [if_pos hj, if_pos (by simpa using hj)]
      simp [freq_entry_bytes]
      omega
    · rw [if_neg hj, if_neg (by simpa using hj)]
      simp

theorem load_fold_getD (u : List Nat) :
    ∀ (js : List Nat) (fs : List Nat) (j : Nat), j < fs.length →
      ((js.foldl (fun fs i => if 0 < u.getD i 0 then
          fs.set i (u.getD i 0) else fs) fs).getD j 0) =
        if j ∈ js ∧ 0 < u.getD j 0 then u.getD j 0 else fs.getD j 0 := by
  intro js
  induction js with
  | nil =>
    intro fs j _
    rw [if_neg (by simp)]
    rfl
  | cons i js ih =>
    intro fs j hj
    rw [List.foldl_cons]
    by_cases hi : 0 < u.getD i 0
    · rw [if_pos hi, ih _ j (by simp [hj])]
      by_cases hji : j = i
      · subst hji
        by_cases hmem : j ∈ js
        · rw [if_pos ⟨hmem, hi⟩, if_pos ⟨List.mem_cons_self j js, hi⟩]
        · rw [if_neg (by tauto), if_pos ⟨List.mem_cons_self j js, hi⟩,
            getD_set_self _ _ _ _ hj]
      · by_cases hmem : j ∈ js ∧ 0 < u.getD j 0
        · rw [if_pos hmem, if_pos ⟨List.mem_cons_of_mem i hmem.1, hmem.2⟩]
        · rw [if_neg hmem, if_neg (by
            rintro ⟨hm, hp⟩
            rcases List.mem_cons.mp hm with h1 | h1
            · exact hji h1
            · exact hmem ⟨h1, hp⟩),
            getD_set_ne _ _ _ _ _ (fun hh => hji hh.symm)]
    · rw [if_neg hi, ih fs j hj]
      by_cases hmem : j ∈ js ∧ 0 < u.getD j 0
      · rw [if_pos hmem, if_pos ⟨List.mem_cons_of_mem i hmem.1, hmem.2⟩]
      · rw [if_neg hmem, if_neg (by
          rintro ⟨hm, hp⟩
          rcases List.mem_cons.mp hm with h1 | h1
          · subst h1
            exact hi hp
          · exact hmem ⟨h1, hp⟩)]

theorem load_loop_spec (u : List Nat) :
    ∀ (js : List Nat) (fuel : Nat) (tempFreq freqs : List Nat)
      (r : BitStreamReader), ROk r →
      js.countP (fun i => decide (0 < u.getD i 0)) < fuel →
      (∀ j ∈ js, j < POSSIBLE_BYTES ∧ u.getD j 0 < 2 ^ 24) →
      rrem r = js.foldl (fun acc i => if 0 < u.getD i 0 then
          acc ++ freq_entry_bytes i (u.getD i 0) else acc) [] ++ [0, 0, 0, 0] →
      ∃ r', huffman_tree_load_loop fuel tempFreq freqs r =
        some (js.foldl (fun fs i => if 0 < u.getD i 0 then
          fs.set i (u.getD i 0) else fs) freqs, r') := by
  intro js
  induction js with
  | nil =>
    intro fuel tempFreq freqs r hok hfuel hjs hrr
    cases fuel with
    | zero => omega
    | succ f =>
      obtain ⟨x1, x2, x3, x4, x5⟩ := bsr_read_bytes_four r hok
        (by rw [hrr]; simp)
      rw [hrr] at x1
      simp only [List.foldl_nil, List.nil_append] at x1 ⊢
      unfold huffman_tree_load_loop
      simp only [x1]
      norm_num
  | cons j js ih =>
    intro fuel tempFreq freqs r hok hfuel hjs hrr
    obtain ⟨hj256, hj24⟩ := hjs j (List.mem_cons_self j js)
    by_cases hjz : 0 < u.getD j 0
    · have hfe : rrem r = freq_entry_bytes j (u.getD j 0) ++
          (js.foldl (fun acc i => if 0 < u.getD i 0 then
            acc ++ freq_entry_bytes i (u.getD i 0) else acc) [] ++
          [0, 0, 0, 0]) := by
        rw [hrr, List.foldl_cons, if_pos hjz, List.nil_append, save_acc_append,
          List.append_assoc]
      cases fuel with
      | zero => omega
      | succ f =>
        obtain ⟨x1, x2, x3, x4, x5⟩ := bsr_read_bytes_four r hok
          (by rw [hfe]; simp [freq_entry_bytes])
        rw [hfe] at x1 x3
        have hx1 : (bsr_read_bytes r 4).1 =
            [j % 256, (u.getD j 0 >>> 16) % 256, (u.getD j 0 >>> 8) % 256,
             u.getD j 0 % 256] := by
          rw [x1]
          simp [freq_entry_bytes]
        have hx3 : rrem (bsr_read_bytes r 4).2 =
            js.foldl (fun acc i => if 0 < u.getD i 0 then
              acc ++ freq_entry_bytes i (u.getD i 0) else acc) [] ++
            [0, 0, 0, 0] := by
          rw [x3]
          simp [freq_entry_bytes]
        unfold huffman_tree_load_loop
        simp only [hx1, List.length_cons, List.length_nil, List.cons_append,
          List.nil_append, List.getD_cons_succ, List.getD_cons_zero]
        rw [reassemble24 _ hj24]
        rw [if_neg (by omega)]
        rw [Nat.mod_eq_of_lt (show j < 256 from hj256)]
        have hfuel2 : js.countP (fun i => decide (0 < u.getD i 0)) < f := by
          rw [List.countP_cons,
            show (decide (0 < u.getD j 0)) = true from by simpa using hjz]
            at hfuel
          simp only [reduceIte] at hfuel
          omega
        obtain ⟨r', hr'⟩ := ih f _ (freqs.set j (u.getD j 0))
          (bsr_read_bytes r 4).2 x2 hfuel2
          (fun i hi => hjs i (List.mem_cons_of_mem j hi)) hx3
        refine ⟨r', ?_⟩
        rw [hr', List.foldl_cons, if_pos hjz]
    · have hrr2 : rrem r = js.foldl (fun acc i => if 0 < u.getD i 0 then
          acc ++ freq_entry_bytes i (u.getD i 0) else acc) [] ++
          [0, 0, 0, 0] := by
        rw [hrr, List.foldl_cons, if_neg hjz]
      have hfuel2 : js.countP (fun i => decide (0 < u.getD i 0)) < fuel := by
        rw [List.countP_cons] at hfuel
        omega
      obtain ⟨r', hr'⟩ := ih fuel tempFreq freqs r hok hfuel2
        (fun i hi => hjs i (List.mem_cons_of_mem j hi)) hrr2
      refine ⟨r', ?_⟩
      rw [hr', List.foldl_cons, if_neg hjz]

/-- C6: for every frequency table whose counts fit in 24 bits, serializing
the table (through the tree built from it) with `huffman_tree_save` on a
fresh unbounded writer and then deserializing the written bytes with
`huffman_tree_load` on a fresh reader succeeds and reproduces the identical
byte-to-frequency mapping on all 256 byte values (covering 0, 1, 2, …, 256
nonzero entries, since `t` is arbitrary). -/
theorem C6_header_round_trip (t : List Nat)
    (h24 : ∀ j < POSSIBLE_BYTES, t.getD j 0 < 2 ^ 24) :
    ∃ (w' : BitStreamWriter) (tree' : HuffmanTreeType) (r' : BitStreamReader),
      huffman_tree_save (huffman_tree_create t) (bsw_create_from_file 0 none) =
        (true, w') ∧
      huffman_tree_load (bsr_create_from_file w'.file 0) = some (tree', r') ∧
      ∀ j < POSSIBLE_BYTES,
        (get_frequencies tree').getD j 0 = t.getD j 0 := by
  obtain ⟨hs1, hs2⟩ := huffman_tree_save_spec (huffman_tree_create t)
    (bsw_create_from_file 0 none) rfl rfl rfl
  have hu24 : ∀ j < POSSIBLE_BYTES,
      (get_frequencies (huffman_tree_create t)).getD j 0 < 2 ^ 24 := by
    intro j hj
    rw [get_frequencies_create t j hj]
    exact h24 j hj
  have hw'file : (huffman_tree_save (huffman_tree_create t)
      (bsw_create_from_file 0 none)).2.file =
      header_bytes (get_frequencies (huffman_tree_create t)) := by
    rw [hs2]
    simp [wcontent, bsw_create_from_file]
  have hr0 : ROk (bsr_create_from_file (huffman_tree_save
      (huffman_tree_create t) (bsw_create_from_file 0 none)).2.file 0) :=
    ⟨rfl, rfl, rfl, le_rfl, Nat.zero_le _,
      by norm_num [bsr_create_from_file, DEFAULT_BUFFER_SIZE], rfl⟩
  have hrrem0 : rrem (bsr_create_from_file (huffman_tree_save
      (huffman_tree_create t) (bsw_create_from_file 0 none)).2.file 0) =
      header_bytes (get_frequencies (huffman_tree_create t)) := by
    rw [rrem]
    simp only [bsr_create_from_file, List.drop_zero, List.drop_nil,
      List.nil_append]
    exact hw'file
  have hCfuel : (List.range POSSIBLE_BYTES).countP
      (fun i => decide (0 < (get_frequencies (huffman_tree_create t)).getD i 0)) <
      (bsr_create_from_file (huffman_tree_save (huffman_tree_create t)
        (bsw_create_from_file 0 none)).2.file 0).file.length + 2 := by
    have hflen : (bsr_create_from_file (huffman_tree_save
        (huffman_tree_create t) (bsw_create_from_file 0 none)).2.file 0).file =
        header_bytes (get_frequencies (huffman_tree_create t)) := by
      simp only [bsr_create_from_file]
      exact hw'file
    rw [hflen, header_bytes, List.length_append,
      entry_fold_length (get_frequencies (huffman_tree_create t))]
    simp only [List.length_cons, List.length_nil]
    omega
  obtain ⟨r', hr'⟩ := load_loop_spec (get_frequencies (huffman_tree_create t))
    (List.range POSSIBLE_BYTES)
    ((bsr_create_from_file (huffman_tree_save (huffman_tree_create t)
      (bsw_create_from_file 0 none)).2.file 0).file.length + 2)
    [0, 0, 0, 0] (List.replicate POSSIBLE_BYTES 0)
    (bsr_create_from_file (huffman_tree_save (huffman_tree_create t)
      (bsw_create_from_file 0 none)).2.file 0)
    hr0 hCfuel
    (fun j hj => ⟨List.mem_range.mp hj, hu24 j (List.mem_range.mp hj)⟩)
    (by rw [hrrem0, header_bytes])
  refine ⟨(huffman_tree_save (huffman_tree_create t)
      (bsw_create_from_file 0 none)).2,
    huffman_tree_create ((List.range POSSIBLE_BYTES).foldl
      (fun fs i => if 0 < (get_frequencies (huffman_tree_create t)).getD i 0
        then fs.set i ((get_frequencies (huffman_tree_create t)).getD i 0)
        else fs) (List.replicate POSSIBLE_BYTES 0)), r', ?_, ?_, ?_⟩
  · rw [← hs1]
  · unfold huffman_tree_load
    rw [hr']
  · intro j hj
    rw [get_frequencies_create _ j hj,
      load_fold_getD (get_frequencies (huffman_tree_create t))
        (List.range POSSIBLE_BYTES) (List.replicate POSSIBLE_BYTES 0) j
        (by simpa using hj)]
    by_cases hpos : 0 < (get_frequencies (huffman_tree_create t)).getD j 0
    · rw [if_pos ⟨List.mem_range.mpr hj, hpos⟩, get_frequencies_create t j hj]
    · rw [if_neg (fun hc => hpos hc.2), List.getD_eq_getElem?_getD,
        List.getElem?_replicate, if_pos hj]
      have : (get_frequencies (huffman_tree_create t)).getD j 0 = 0 := by
        omega
      rw [get_frequencies_create t j hj] at this
      rw [this]
      rfl


/-- Witness for C6: the hypothesis holds and the theorem applies at the
concrete table with the two nonzero entries (65, 3) and (66, 5). -/
theorem C6_header_round_trip_witness :
    (∀ j < POSSIBLE_BYTES,
      (((List.replicate POSSIBLE_BYTES 0).set 65 3).set 66 5).getD j 0 <
        2 ^ 24) ∧
    (∃ (w' : BitStreamWriter) (tree' : HuffmanTreeType)
        (r' : BitStreamReader),
      huffman_tree_save
          (huffman_tree_create
            (((List.replicate POSSIBLE_BYTES 0).set 65 3).set 66 5))
          (bsw_create_from_file 0 none) = (true, w') ∧
      huffman_tree_load (bsr_create_from_file w'.file 0) =
        some (tree', r') ∧
      ∀ j < POSSIBLE_BYTES,
        (get_frequencies tree').getD j 0 =
          (((List.replicate POSSIBLE_BYTES 0).set 65 3).set 66 5).getD j 0) :=
  ⟨by decide, C6_header_round_trip _ (by decide)⟩

end HuffmanC
